import Mathlib

/-!
Verification of the tapas quasi-random generator library
(src/rng/halton.rs and src/rng/mod.rs).

Modelling conventions: the f64 floating point arithmetic of the source is
modelled by exact rational arithmetic over ℚ; u32 and usize quantities are
modelled by ℕ (no modelled operation wraps for the inputs considered, and
digit values stay below the base).  Vec is modelled by List, in-place index
assignment by List.set, Vec::push by appending.  Loops whose variant is not
structural are given explicit fuel chosen large enough to never run out on
the inputs the source can reach.
-/

namespace Tapas

/-- The digit-decomposition loop of Halton::new:
`while i >= b { digits.push(i % b); i = i / b } digits.push(i)`.
Fuel-based so that it reduces; fuel `i` never runs out when `2 ≤ b`. -/
def toDigitsAux (b : ℕ) : ℕ → ℕ → List ℕ
  | 0, i => [i]
  | fuel + 1, i => if b ≤ i then i % b :: toDigitsAux b fuel (i / b) else [i]

/-- Base-`b` digits of `i`, least significant first (what Halton::new stores). -/
def toDigits (b i : ℕ) : List ℕ := toDigitsAux b i i

/-- The Halton struct of src/rng/halton.rs. -/
structure Halton where
  /-- Vector of remainders used to quickly calculate the next halton number -/
  rem : List ℚ
  /-- Digits in base-b notation for the halton sequence for index i -/
  dig : List ℕ
  /-- Base-b used to determine which base-b notation to use -/
  base : ℕ
  /-- Latest value generated from the halton sequence -/
  state : ℚ
  deriving Repr, DecidableEq

instance : Inhabited Halton := ⟨⟨[], [], 0, 0⟩⟩

/-- The remainder pre-computation loop of Halton::new: starting from `[0]` and
walking the digits most-significant first, push `(d + last)/base` while there
are fewer remainders than digits (`n` is the digit count). -/
def buildRem (b : ℚ) (n : ℕ) : List ℕ → List ℚ → List ℚ
  | [], acc => acc
  | d :: ds, acc =>
      if acc.length < n then
        buildRem b n ds (acc ++ [((d : ℚ) + acc.getLastD 0) / b])
      else
        buildRem b n ds acc

/-- Halton::new: clamp the index to ≥ 1 (then make it 0-based), clamp the base
to ≥ 2, decompose into digits, pre-compute remainders, start with state 0. -/
def Halton.new (i b : ℕ) : Halton :=
  let i2 := if i < 1 then 0 else i - 1
  let b2 := if b < 2 then 2 else b
  let digits := toDigits b2 i2
  let remainders := buildRem (b2 : ℚ) digits.length digits.reverse [0]
  { base := b2, rem := remainders, dig := digits, state := 0 }

/-- The carry scan of Halton::advance:
`while i < dig.len() && dig[i] == base-1 { dig[i] = 0; i += 1 }`.
Returns the number of zeroed digits together with the updated digit list. -/
def carry (bm1 : ℕ) : List ℕ → ℕ × List ℕ
  | [] => (0, [])
  | d :: ds =>
      if d = bm1 then
        ((carry bm1 ds).1 + 1, 0 :: (carry bm1 ds).2)
      else
        (0, d :: ds)

/-- The remainder-propagation loop of Halton::advance:
`for k in first..first+steps { rem[k+1] = rem[k] / b }` (sequential, each
write is visible to the next read). -/
def propagate (b : ℚ) : ℕ → ℕ → List ℚ → List ℚ
  | _, 0, rem => rem
  | k, steps + 1, rem => propagate b (k + 1) steps (rem.set (k + 1) (rem.getD k 0 / b))

/-- Halton::advance, translated line by line from src/rng/halton.rs.
If the least significant digit would overflow, run the carry scan, increment
the first surviving digit (or append digit 1 and remainder 0), recompute the
remainder slots touched by the carry and take the state from the top
remainder; otherwise just bump the least significant digit. -/
def Halton.advance (h : Halton) : Halton :=
  if h.dig.headD 0 = h.base - 1 then
    let p := carry (h.base - 1) h.dig
    let i := p.1
    let dr :=
      if i < p.2.length then
        (p.2.set i (p.2.getD i 0 + 1), h.rem)
      else
        (p.2 ++ [1], h.rem ++ [(0 : ℚ)])
    let dig2 := dr.1
    let rem2 := dr.2
    let len := rem2.length
    let b : ℚ := (h.base : ℚ)
    let rem3 := rem2.set (len - i) (((dig2.getD i 0 : ℚ) + rem2.getD (len - i - 1) 0) / b)
    let rem4 := if 2 ≤ i then propagate b (len - i) ((len - 1) - (len - i)) rem3 else rem3
    { base := h.base, dig := dig2, rem := rem4, state := rem4.getLastD 0 / b }
  else
    let dig2 := h.dig.set 0 (h.dig.headD 0 + 1)
    { base := h.base, dig := dig2, rem := h.rem,
      state := ((dig2.headD 0 : ℚ) + h.rem.getLastD 0) / (h.base : ℚ) }

/-- Advance a generator exactly `k` times. -/
def Halton.advanceN (h : Halton) : ℕ → Halton
  | 0 => h
  | k + 1 => (Halton.advanceN h k).advance

/-- Halton::skip: advance `n` times, discarding intermediate values. -/
def Halton.skip (h : Halton) (n : ℕ) : Halton := h.advanceN n

/-- Halton::sample_f64 (also the body of the Iterator impl and next_f64):
advance, then yield the new state. -/
def Halton.sample_f64 (h : Halton) : ℚ × Halton :=
  let h2 := h.advance
  (h2.state, h2)

/-- Numeric value encoded by a least-significant-first digit list. -/
def digitsNum (b : ℕ) : List ℕ → ℕ
  | [] => 0
  | d :: ds => d + b * digitsNum b ds

/-- Halton value of a least-significant-first digit list: Σ dⱼ / b^(j+1). -/
def digitsVal (b : ℚ) : List ℕ → ℚ
  | [] => 0
  | d :: ds => ((d : ℚ) + digitsVal b ds) / b

/-- The remainder cache a digit list `ds` should carry: slot `k` holds the
Halton value of the top `k` digits (`rem[0] = 0`, and slot `k` is built from
the most significant digits downward). -/
def remList (b : ℚ) (ds : List ℕ) : List ℚ :=
  (List.range ds.length).map fun k => digitsVal b (ds.drop (ds.length - k))

/-- The brute_force reference from the test module of src/rng/halton.rs:
`while i > 0 { f /= base; r += f * (i % base); i /= base }`. Fuel-based;
fuel `i` never runs out when `2 ≤ b`. -/
def bruteForceAux (b : ℕ) : ℕ → ℕ → ℚ → ℚ → ℚ
  | 0, _, _, r => r
  | fuel + 1, i, f, r =>
      if 0 < i then
        bruteForceAux b fuel (i / b) (f / b) (r + f / b * ((i % b : ℕ) : ℚ))
      else
        r

/-- Direct (non-incremental) digit-expansion value of Halton element `index`
in base `base`, as computed by the brute_force test reference. -/
def bruteForce (index base : ℕ) : ℚ :=
  let i := if index = 0 then 1 else index
  let b := if base < 2 then 2 else base
  bruteForceAux b i i 1 0

/-- States a correctly constructed generator maintains: a sensible base, a
non-empty digit vector with every digit below the base, and a remainder
vector that is exactly the cache `remList` prescribes for the digits. -/
def Halton.Inv (h : Halton) : Prop :=
  2 ≤ h.base ∧ h.dig ≠ [] ∧ (∀ d ∈ h.dig, d < h.base) ∧
    h.rem = remList (h.base : ℚ) h.dig

/-- Halton::advance with every vector access, unwrap and defensive assertion
made explicit: returns none exactly when a debug assertion would fire, an
index (or the usize subtraction producing it) would be out of bounds, or an
unwrap would fail; otherwise it returns the advanced generator. -/
def Halton.advanceChecked (h : Halton) : Option Halton :=
  if h.dig = [] ∨ h.rem = [] then none
  else if h.dig.headD 0 = h.base - 1 then
    let p := carry (h.base - 1) h.dig
    let i := p.1
    let dr :=
      if i < p.2.length then
        (p.2.set i (p.2.getD i 0 + 1), h.rem)
      else
        (p.2 ++ [1], h.rem ++ [(0 : ℚ)])
    let dig2 := dr.1
    let rem2 := dr.2
    let len := rem2.length
    if i < dig2.length ∧ i ≤ len ∧ 1 ≤ len - i ∧ len - i < len ∧ len - i - 1 < len ∧
        (len - i) + ((len - 1) - (len - i)) < len then
      let b : ℚ := (h.base : ℚ)
      let rem3 := rem2.set (len - i) (((dig2.getD i 0 : ℚ) + rem2.getD (len - i - 1) 0) / b)
      let rem4 := if 2 ≤ i then propagate b (len - i) ((len - 1) - (len - i)) rem3 else rem3
      if rem4 = [] then none
      else some { base := h.base, dig := dig2, rem := rem4, state := rem4.getLastD 0 / b }
    else none
  else
    some
      { base := h.base,
        dig := h.dig.set 0 (h.dig.headD 0 + 1),
        rem := h.rem,
        state := (((h.dig.set 0 (h.dig.headD 0 + 1)).headD 0 : ℚ) +
          h.rem.getLastD 0) / (h.base : ℚ) }

/-- The carry-branch remainder update as claim C3 words it (a second
definition following the specification text, for comparison with the source
translation Halton.advance): after the carry resolves, the slot of the newly
incremented or appended digit is recomputed, then only the slots strictly
between it and the top are propagated; the top remainder slot itself is not
recomputed, and the new state is the top remainder divided by the base.
Outside the carry branch it coincides with Halton.advance. -/
def Halton.advanceClaimedCarry (h : Halton) : Halton :=
  if h.dig.headD 0 = h.base - 1 then
    let p := carry (h.base - 1) h.dig
    let i := p.1
    let dr :=
      if i < p.2.length then
        (p.2.set i (p.2.getD i 0 + 1), h.rem)
      else
        (p.2 ++ [1], h.rem ++ [(0 : ℚ)])
    let dig2 := dr.1
    let rem2 := dr.2
    let len := rem2.length
    let b : ℚ := (h.base : ℚ)
    let rem3 := rem2.set (len - i) (((dig2.getD i 0 : ℚ) + rem2.getD (len - i - 1) 0) / b)
    let rem4 := propagate b (len - i) ((len - 2) - (len - i)) rem3
    { base := h.base, dig := dig2, rem := rem4, state := rem4.getLastD 0 / b }
  else
    h.advance

/-- The Interleave struct of src/rng/mod.rs: an ordered collection of
generators and a cursor into it. -/
structure Interleave (R : Type) where
  generators : List R
  current : ℕ

/-- Interleave::new together with its debug assertion: constructing from an
empty slice is a precondition violation (modelled as none); otherwise the
generators are copied in order and the cursor starts at 0. -/
def Interleave.new {R : Type} (gs : List R) : Option (Interleave R) :=
  if 0 < gs.length then some { generators := gs, current := 0 } else none

/-- One delegated sampling call (the interleave_next macro body, generic in
the per-generator sampler exactly as the macro is generic in the method):
draw from generators[current], store the updated generator back in place,
then advance the cursor modulo the number of generators. -/
def Interleave.step {R : Type} [Inhabited R] (samp : R → ℚ × R) (s : Interleave R) :
    ℚ × Interleave R :=
  let p := samp (s.generators.getD s.current default)
  (p.1, { generators := s.generators.set s.current p.2,
          current := (s.current + 1) % (s.generators.set s.current p.2).length })

/-- Iterate step, keeping only the interleaver state. -/
def Interleave.stepN {R : Type} [Inhabited R] (samp : R → ℚ × R) (s : Interleave R) :
    ℕ → Interleave R
  | 0 => s
  | k + 1 => (Interleave.step samp (Interleave.stepN samp s k)).2

/-- The value returned by the (k+1)-st delegated call (0-based position k). -/
def Interleave.outAt {R : Type} [Inhabited R] (samp : R → ℚ × R) (s : Interleave R)
    (k : ℕ) : ℚ :=
  (Interleave.step samp (Interleave.stepN samp s k)).1

/-- Interleave::next_f64 instantiated with the Halton f64 sampler. -/
def Interleave.next_f64 (s : Interleave Halton) : ℚ × Interleave Halton :=
  Interleave.step Halton.sample_f64 s

/-- How many of the first k round-robin calls (cursor starting at 0) land on
slot j, for a collection of len generators. -/
def hits (len j k : ℕ) : ℕ := k / len + (if j < k % len then 1 else 0)

/-- Iterate a sampler on a single generator, keeping the generator state:
the generator after it has produced m values of its own. -/
def sampleIterate {R : Type} (samp : R → ℚ × R) (g : R) : ℕ → R
  | 0 => g
  | m + 1 => (samp (sampleIterate samp g m)).2

/-! ### List index helpers -/

lemma getLastD_eq_getD {α : Type} (l : List α) (d : α) :
    l.getLastD d = l.getD (l.length - 1) d := by
  rw [List.getLastD_eq_getLast?, List.getLast?_eq_getElem?, List.getD_eq_getElem?_getD]

lemma getD_set_self {α : Type} (l : List α) (i : ℕ) (a d : α) (h : i < l.length) :
    (l.set i a).getD i d = a := by
  rw [List.getD_eq_getElem _ _ (by simpa using h)]
  exact List.getElem_set_self _

lemma getD_set_ne {α : Type} (l : List α) (i j : ℕ) (a d : α) (h : i ≠ j) :
    (l.set i a).getD j d = l.getD j d := by
  by_cases hj : j < l.length
  · rw [List.getD_eq_getElem _ _ (by simpa using hj), List.getD_eq_getElem _ _ hj]
    exact List.getElem_set_ne h _
  · rw [List.getD_eq_getElem?_getD, List.getD_eq_getElem?_getD,
      List.getElem?_eq_none (by simpa using not_lt.mp hj),
      List.getElem?_eq_none (not_lt.mp hj)]

lemma getD_append_left {α : Type} (l1 l2 : List α) (j : ℕ) (d : α) (h : j < l1.length) :
    (l1 ++ l2).getD j d = l1.getD j d := by
  rw [List.getD_eq_getElem _ _ (by simp; omega), List.getD_eq_getElem _ _ h]
  exact List.getElem_append_left h

lemma getD_append_right {α : Type} (l1 l2 : List α) (j : ℕ) (d : α) (h : l1.length ≤ j) :
    (l1 ++ l2).getD j d = l2.getD (j - l1.length) d := by
  by_cases hj : j < l1.length + l2.length
  · rw [List.getD_eq_getElem _ _ (by simp; omega), List.getD_eq_getElem _ _ (by omega)]
    exact List.getElem_append_right h
  · rw [List.getD_eq_getElem?_getD, List.getD_eq_getElem?_getD,
      List.getElem?_eq_none (by simp; omega), List.getElem?_eq_none (by omega)]

/-! ### Digit decomposition -/

lemma toDigitsAux_congr (b : ℕ) (hb : 2 ≤ b) :
    ∀ f1 f2 i, i ≤ f1 → i ≤ f2 → toDigitsAux b f1 i = toDigitsAux b f2 i := by
  intro f1
  induction f1 with
  | zero =>
    intro f2 i h1 h2
    have hi : i = 0 := Nat.le_zero.mp h1
    subst hi
    cases f2 with
    | zero => rfl
    | succ f =>
      simp only [toDigitsAux]
      rw [if_neg (by omega)]
  | succ f ih =>
    intro f2 i h1 h2
    cases f2 with
    | zero =>
      have hi : i = 0 := Nat.le_zero.mp h2
      subst hi
      simp only [toDigitsAux]
      rw [if_neg (by omega)]
    | succ f2' =>
      simp only [toDigitsAux]
      by_cases hbi : b ≤ i
      · simp only [if_pos hbi]
        have hdiv : i / b < i := Nat.div_lt_self (by omega) (by omega)
        rw [ih f2' (i / b) (by omega) (by omega)]
      · simp [if_neg hbi]

lemma toDigits_eq (b i : ℕ) (hb : 2 ≤ b) :
    toDigits b i = if b ≤ i then i % b :: toDigits b (i / b) else [i] := by
  unfold toDigits
  cases i with
  | zero =>
    have : ¬ b ≤ 0 := by omega
    simp [toDigitsAux, this]
  | succ n =>
    simp only [toDigitsAux]
    by_cases hbi : b ≤ n + 1
    · simp only [if_pos hbi]
      have hdiv : (n + 1) / b < n + 1 := Nat.div_lt_self (by omega) (by omega)
      rw [toDigitsAux_congr b hb n ((n + 1) / b) ((n + 1) / b) (by omega) le_rfl]
    · simp [if_neg hbi]

lemma toDigits_ne_nil (b i : ℕ) : toDigits b i ≠ [] := by
  unfold toDigits
  cases i with
  | zero => simp [toDigitsAux]
  | succ n =>
    simp only [toDigitsAux]
    split <;> simp

lemma toDigits_lt (b : ℕ) (hb : 2 ≤ b) : ∀ i, ∀ d ∈ toDigits b i, d < b := by
  intro i
  induction i using Nat.strong_induction_on with
  | _ i ih =>
    rw [toDigits_eq b i hb]
    by_cases hbi : b ≤ i
    · simp only [if_pos hbi, List.mem_cons]
      rintro d (rfl | hd)
      · exact Nat.mod_lt _ (by omega)
      · exact ih (i / b) (Nat.div_lt_self (by omega) (by omega)) d hd
    · simp only [if_neg hbi, List.mem_singleton]
      rintro d rfl
      omega

lemma digitsNum_toDigits (b : ℕ) (hb : 2 ≤ b) : ∀ i, digitsNum b (toDigits b i) = i := by
  intro i
  induction i using Nat.strong_induction_on with
  | _ i ih =>
    rw [toDigits_eq b i hb]
    by_cases hbi : b ≤ i
    · simp only [if_pos hbi, digitsNum]
      rw [ih (i / b) (Nat.div_lt_self (by omega) (by omega))]
      exact Nat.mod_add_div i b
    · simp [if_neg hbi, digitsNum]

/-! ### Values and numbers encoded by digit lists -/

lemma digitsVal_nonneg (b : ℚ) (hb : 0 < b) : ∀ ds, 0 ≤ digitsVal b ds := by
  intro ds
  induction ds with
  | nil => simp [digitsVal]
  | cons d t ih =>
    simp only [digitsVal]
    exact div_nonneg (add_nonneg (Nat.cast_nonneg d) ih) hb.le

lemma digitsVal_lt_one (bn : ℕ) (hb : 1 ≤ bn) :
    ∀ ds, (∀ d ∈ ds, d < bn) → digitsVal (bn : ℚ) ds < 1 := by
  intro ds
  induction ds with
  | nil => simp [digitsVal]
  | cons d t ih =>
    intro hlt
    simp only [digitsVal]
    have h1 : digitsVal (bn : ℚ) t < 1 := ih fun x hx => hlt x (List.mem_cons_of_mem _ hx)
    have h2 : (d : ℚ) + 1 ≤ (bn : ℚ) := by
      exact_mod_cast Nat.succ_le_of_lt (hlt d (List.mem_cons_self _ _))
    have hbq : (0 : ℚ) < (bn : ℚ) := by exact_mod_cast hb
    rw [div_lt_one hbq]
    linarith

lemma digitsNum_eq_zero_val (b : ℕ) (hb : 1 ≤ b) :
    ∀ ds, digitsNum b ds = 0 → digitsVal (b : ℚ) ds = 0 := by
  intro ds
  induction ds with
  | nil => simp [digitsVal]
  | cons d t ih =>
    intro h
    simp only [digitsNum] at h
    have hd : d = 0 := by omega
    have ht : digitsNum b t = 0 := by
      rcases Nat.mul_eq_zero.mp (by omega : b * digitsNum b t = 0) with hb0 | h0
      · omega
      · exact h0
    simp [digitsVal, hd, ih ht]

lemma digitsVal_eq_toDigits (b : ℕ) (hb : 2 ≤ b) :
    ∀ ds, (∀ d ∈ ds, d < b) →
      digitsVal (b : ℚ) ds = digitsVal (b : ℚ) (toDigits b (digitsNum b ds)) := by
  intro ds
  induction ds with
  | nil =>
    intro _
    have h0 : toDigits b 0 = [0] := by rw [toDigits_eq b 0 hb, if_neg (by omega)]
    rw [show digitsNum b [] = 0 from rfl, h0]
    simp [digitsVal]
  | cons d t ih =>
    intro hlt
    have hd : d < b := hlt d (List.mem_cons_self _ _)
    have ht : ∀ x ∈ t, x < b := fun x hx => hlt x (List.mem_cons_of_mem _ hx)
    by_cases h0 : digitsNum b t = 0
    · have hnum : digitsNum b (d :: t) = d := by simp [digitsNum, h0]
      rw [hnum, toDigits_eq b d hb, if_neg (by omega)]
      simp only [digitsVal]
      rw [digitsNum_eq_zero_val b (by omega) t h0]
    · have hnum : digitsNum b (d :: t) = d + b * digitsNum b t := rfl
      rw [hnum, toDigits_eq b _ hb]
      have hble : b ≤ d + b * digitsNum b t := by
        have : 1 ≤ digitsNum b t := by omega
        nlinarith
      rw [if_pos hble]
      have hmod : (d + b * digitsNum b t) % b = d := by
        rw [Nat.add_mul_mod_self_left]
        exact Nat.mod_eq_of_lt hd
      have hdiv : (d + b * digitsNum b t) / b = digitsNum b t := by
        rw [Nat.add_mul_div_left _ _ (by omega : 0 < b), Nat.div_eq_of_lt hd]
        omega
      rw [hmod, hdiv]
      simp only [digitsVal]
      rw [ih ht]

lemma digitsVal_replicate_append (b : ℚ) (l : List ℕ) :
    ∀ m, digitsVal b (List.replicate m 0 ++ l) = digitsVal b l / b ^ m := by
  intro m
  induction m with
  | zero => simp
  | succ m ih =>
    rw [List.replicate_succ, List.cons_append, digitsVal, ih, Nat.cast_zero, zero_add,
      div_div, ← pow_succ]

lemma digitsNum_append (b : ℕ) (l1 l2 : List ℕ) :
    digitsNum b (l1 ++ l2) = digitsNum b l1 + b ^ l1.length * digitsNum b l2 := by
  induction l1 with
  | nil => simp [digitsNum]
  | cons d t ih =>
    simp only [List.cons_append, digitsNum, List.length_cons, List.append_eq, ih]
    ring

lemma digitsNum_lt_pow (b : ℕ) (hb : 1 ≤ b) :
    ∀ ds, (∀ d ∈ ds, d < b) → digitsNum b ds < b ^ ds.length := by
  intro ds
  induction ds with
  | nil => simp [digitsNum]
  | cons d t ih =>
    intro hlt
    have hd : d < b := hlt d (List.mem_cons_self _ _)
    have ht := ih fun x hx => hlt x (List.mem_cons_of_mem _ hx)
    simp only [digitsNum, List.length_cons, pow_succ]
    calc d + b * digitsNum b t < b + b * digitsNum b t := by omega
      _ = b * (digitsNum b t + 1) := by ring
      _ ≤ b * b ^ t.length := by

        exact Nat.mul_le_mul_left b (by omega)
      _ = b ^ t.length * b := by ring

lemma digitsNum_all_max (b : ℕ) (hb : 1 ≤ b) :
    ∀ ds, (∀ d ∈ ds, d = b - 1) → digitsNum b ds + 1 = b ^ ds.length := by
  intro ds
  induction ds with
  | nil => simp [digitsNum]
  | cons d t ih =>
    intro hall
    have hd : d = b - 1 := hall d (List.mem_cons_self _ _)
    have ht := ih fun x hx => hall x (List.mem_cons_of_mem _ hx)
    simp only [digitsNum, List.length_cons, pow_succ]
    subst hd
    calc b - 1 + b * digitsNum b t + 1 = b + b * digitsNum b t := by omega
      _ = b * (digitsNum b t + 1) := by ring
      _ = b * b ^ t.length := by rw [ht]
      _ = b ^ t.length * b := by ring

lemma all_max_of_digitsNum (b : ℕ) (hb : 2 ≤ b) :
    ∀ ds, (∀ d ∈ ds, d < b) → digitsNum b ds + 1 = b ^ ds.length →
      ∀ d ∈ ds, d = b - 1 := by
  intro ds
  induction ds with
  | nil => simp
  | cons d t ih =>
    intro hlt hpow
    have hd : d < b := hlt d (List.mem_cons_self _ _)
    have ht : ∀ x ∈ t, x < b := fun x hx => hlt x (List.mem_cons_of_mem _ hx)
    have htlt : digitsNum b t < b ^ t.length := digitsNum_lt_pow b (by omega) t ht
    simp only [digitsNum, List.length_cons, pow_succ] at hpow
    have hsplit : b ^ t.length = digitsNum b t + (b ^ t.length - digitsNum b t) :=
      (Nat.add_sub_cancel' htlt.le).symm
    have hkey : d + 1 = b * (b ^ t.length - digitsNum b t) := by
      have hdist : b ^ t.length * b =
          b * digitsNum b t + b * (b ^ t.length - digitsNum b t) := by
        calc b ^ t.length * b = b * b ^ t.length := by ring
          _ = b * (digitsNum b t + (b ^ t.length - digitsNum b t)) := by rw [← hsplit]
          _ = b * digitsNum b t + b * (b ^ t.length - digitsNum b t) := by ring
      linarith [hpow, hdist]
    have hmpos : 1 ≤ b ^ t.length - digitsNum b t := by omega
    have hble : b ≤ b * (b ^ t.length - digitsNum b t) :=
      Nat.le_mul_of_pos_right b (by omega)
    have hdb : d + 1 = b := by omega
    have hm1 : b ^ t.length - digitsNum b t = 1 := by
      have : b * (b ^ t.length - digitsNum b t) = b * 1 := by omega
      exact Nat.eq_of_mul_eq_mul_left (by omega) this
    have hnum1 : digitsNum b t + 1 = b ^ t.length := by omega
    intro x hx
    rcases List.mem_cons.mp hx with rfl | hx'
    · omega
    · exact ih ht hnum1 x hx'

/-! ### The remainder cache -/

lemma length_remList (b : ℚ) (ds : List ℕ) : (remList b ds).length = ds.length := by
  simp [remList]

lemma remList_getD (b : ℚ) (ds : List ℕ) (k : ℕ) (h : k < ds.length) :
    (remList b ds).getD k 0 = digitsVal b (ds.drop (ds.length - k)) := by
  rw [List.getD_eq_getElem _ _ (by simp [remList]; omega)]
  simp [remList]

lemma buildRem_go (b : ℚ) (ds : List ℕ) :
    ∀ (l : List ℕ) (j : ℕ), l = ds.reverse.drop j →
      buildRem b ds.length l
        ((List.range (min (j + 1) ds.length)).map
          fun k => digitsVal b (ds.drop (ds.length - k))) = remList b ds := by
  intro l
  induction l with
  | nil =>
    intro j hj
    have hjn : ds.length ≤ j := by
      have := List.drop_eq_nil_iff.mp hj.symm
      simpa using this
    have hmin : min (j + 1) ds.length = ds.length := by omega
    rw [hmin]
    simp only [buildRem, remList]
  | cons d l2 ih =>
    intro j hj
    have hjlt : j < ds.length := by
      by_contra hge
      have hnil : ds.reverse.drop j = [] := List.drop_eq_nil_iff.mpr (by simp; omega)
      rw [hnil] at hj
      exact List.noConfusion hj
    have hjrev : j < ds.reverse.length := by simpa using hjlt
    have hsplit : ds.reverse.drop j = ds.reverse[j] :: ds.reverse.drop (j + 1) :=
      List.drop_eq_getElem_cons hjrev
    rw [hsplit] at hj
    have hd : d = ds.reverse[j] := (List.cons.injEq _ _ _ _).mp hj |>.1
    have hl2 : l2 = ds.reverse.drop (j + 1) := (List.cons.injEq _ _ _ _).mp hj |>.2
    have hdval : (d : ℚ) = ((ds.getD (ds.length - (j + 1)) 0 : ℕ) : ℚ) := by
      rw [hd, List.getD_eq_getElem _ _ (by omega)]
      have hrev := List.getElem_reverse hjrev
      rw [hrev]
      have hideq : ds.length - 1 - j = ds.length - (j + 1) := by omega
      simp only [hideq]
    by_cases hcase : j + 1 < ds.length
    · have hmin : min (j + 1) ds.length = j + 1 := by omega
      rw [hmin]
      have hlen : ((List.range (j + 1)).map
          fun k => digitsVal b (ds.drop (ds.length - k))).length = j + 1 := by simp
      rw [buildRem, if_pos (by rw [hlen]; omega)]
      have hlast : ((List.range (j + 1)).map
          fun k => digitsVal b (ds.drop (ds.length - k))).getLastD 0 =
          digitsVal b (ds.drop (ds.length - j)) := by
        rw [List.range_succ, List.map_append]
        exact List.getLastD_concat _ _ _
      have hstep : ((d : ℚ) + digitsVal b (ds.drop (ds.length - j))) / b =
          digitsVal b (ds.drop (ds.length - (j + 1))) := by
        have hidx : ds.length - (j + 1) < ds.length := by omega
        rw [List.drop_eq_getElem_cons hidx]
        have hsucc : ds.length - (j + 1) + 1 = ds.length - j := by omega
        rw [hsucc, digitsVal, hdval, List.getD_eq_getElem _ _ hidx]
      rw [hlast]
      have hacc : ((List.range (j + 1)).map
            fun k => digitsVal b (ds.drop (ds.length - k))) ++
            [((d : ℚ) + digitsVal b (ds.drop (ds.length - j))) / b] =
          (List.range (min (j + 1 + 1) ds.length)).map
            fun k => digitsVal b (ds.drop (ds.length - k)) := by
        have hmin2 : min (j + 1 + 1) ds.length = j + 2 := by omega
        rw [hmin2]
        have hr : List.range (j + 2) = List.range (j + 1) ++ [j + 1] := by
          rw [← List.range_succ]
        rw [hr, List.map_append]
        congr 1
        simp only [List.map_cons, List.map_nil]
        rw [hstep]
      rw [hacc]
      exact ih (j + 1) hl2
    · have hj1 : j + 1 = ds.length := by omega
      have hmin : min (j + 1) ds.length = ds.length := by omega
      rw [hmin]
      have hlen : ((List.range ds.length).map
          fun k => digitsVal b (ds.drop (ds.length - k))).length = ds.length := by simp
      rw [buildRem, if_neg (by rw [hlen]; omega)]
      have hmin2 : min (j + 1 + 1) ds.length = ds.length := by omega
      have := ih (j + 1) hl2
      rw [hmin2] at this
      exact this

lemma new_rem_eq (b : ℚ) (ds : List ℕ) (hds : ds ≠ []) :
    buildRem b ds.length ds.reverse [0] = remList b ds := by
  have h0 : ([(0 : ℚ)]) = (List.range (min (0 + 1) ds.length)).map
      fun k => digitsVal b (ds.drop (ds.length - k)) := by
    have hn : 1 ≤ ds.length := by
      cases ds with
      | nil => exact absurd rfl hds
      | cons x t => simp
    have hmin : min (0 + 1) ds.length = 1 := by omega
    rw [hmin]
    simp [List.range_succ, List.drop_length, digitsVal]
  rw [h0]
  exact buildRem_go b ds ds.reverse 0 (by simp)

lemma remList_getLastD (b : ℚ) (ds : List ℕ) (hds : ds ≠ []) :
    (remList b ds).getLastD 0 = digitsVal b (ds.drop 1) := by
  have hn : 1 ≤ ds.length := by
    cases ds with
    | nil => exact absurd rfl hds
    | cons x t => simp
  rw [getLastD_eq_getD, length_remList, remList_getD b ds (ds.length - 1) (by omega)]
  have hidx : ds.length - (ds.length - 1) = 1 := by omega
  rw [hidx]

lemma remList_cons_irrel (b : ℚ) (x y : ℕ) (t : List ℕ) :
    remList b (x :: t) = remList b (y :: t) := by
  unfold remList
  simp only [List.length_cons]
  apply List.map_congr_left
  intro k hk
  have hk' : k < t.length + 1 := by simpa using List.mem_range.mp hk
  have h1 : t.length + 1 - k = (t.length - k) + 1 := by omega
  rw [h1, List.drop_succ_cons, List.drop_succ_cons]

lemma list_eq_of_getD {α : Type} {d : α} (l1 l2 : List α) (hlen : l1.length = l2.length)
    (h : ∀ j, j < l1.length → l1.getD j d = l2.getD j d) : l1 = l2 := by
  apply List.ext_getElem hlen
  intro j h1 h2
  have hj := h j h1
  rwa [List.getD_eq_getElem _ _ h1, List.getD_eq_getElem _ _ h2] at hj

/-! ### The carry scan -/

lemma carry_fst_le (bm1 : ℕ) : ∀ ds, (carry bm1 ds).1 ≤ ds.length := by
  intro ds
  induction ds with
  | nil => simp [carry]
  | cons d t ih =>
    by_cases hd : d = bm1
    · simp only [carry, if_pos hd, List.length_cons]
      omega
    · simp [carry, if_neg hd]

lemma carry_snd (bm1 : ℕ) : ∀ ds,
    (carry bm1 ds).2 = List.replicate (carry bm1 ds).1 0 ++ ds.drop (carry bm1 ds).1 := by
  intro ds
  induction ds with
  | nil => simp [carry]
  | cons d t ih =>
    by_cases hd : d = bm1
    · simp only [carry, if_pos hd, List.replicate_succ, List.cons_append, List.drop_succ_cons]
      rw [ih]
    · simp [carry, if_neg hd]

lemma carry_fst_pos (bm1 : ℕ) (ds : List ℕ) (hds : ds ≠ []) (hhead : ds.headD 0 = bm1) :
    1 ≤ (carry bm1 ds).1 := by
  cases ds with
  | nil => exact absurd rfl hds
  | cons d t =>
    have hd : d = bm1 := by simpa using hhead
    simp [carry, if_pos hd]

lemma carry_stop (bm1 : ℕ) : ∀ ds, (carry bm1 ds).1 < ds.length →
    ds.getD (carry bm1 ds).1 0 ≠ bm1 := by
  intro ds
  induction ds with
  | nil => simp [carry]
  | cons d t ih =>
    by_cases hd : d = bm1
    · simp only [carry, if_pos hd, List.length_cons]
      intro hlt
      have := ih (by omega)
      simpa using this
    · simp only [carry, if_neg hd]
      intro _
      simpa using hd

lemma carry_all (bm1 : ℕ) : ∀ ds, (carry bm1 ds).1 = ds.length → ∀ d ∈ ds, d = bm1 := by
  intro ds
  induction ds with
  | nil => simp
  | cons d t ih =>
    by_cases hd : d = bm1
    · simp only [carry, if_pos hd, List.length_cons]
      intro hlen x hx
      rcases List.mem_cons.mp hx with rfl | hx'
      · exact hd
      · exact ih (by omega) x hx'
    · simp only [carry, if_neg hd]
      intro hlen
      simp at hlen

lemma carry_take (bm1 : ℕ) : ∀ ds,
    ds.take (carry bm1 ds).1 = List.replicate (carry bm1 ds).1 bm1 := by
  intro ds
  induction ds with
  | nil => simp [carry]
  | cons d t ih =>
    by_cases hd : d = bm1
    · simp only [carry, if_pos hd, List.take_succ_cons, List.replicate_succ]
      rw [ih, hd]
    · simp [carry, if_neg hd]

/-! ### The propagation loop -/

lemma propagate_length (b : ℚ) : ∀ s k rem, (propagate b k s rem).length = rem.length := by
  intro s
  induction s with
  | zero => intro k rem; rfl
  | succ s ih =>
    intro k rem
    simp only [propagate]
    rw [ih]
    exact List.length_set _ _ _

lemma propagate_getD (b : ℚ) : ∀ s k rem, k + s < rem.length → ∀ j,
    (propagate b k s rem).getD j 0 =
      if k < j ∧ j ≤ k + s then rem.getD k 0 / b ^ (j - k) else rem.getD j 0 := by
  intro s
  induction s with
  | zero =>
    intro k rem hks j
    simp only [propagate]
    rw [if_neg (by omega)]
  | succ s ih =>
    intro k rem hks j
    simp only [propagate]
    rw [ih (k + 1) _ (by rw [List.length_set]; omega) j]
    by_cases h1 : k + 1 < j ∧ j ≤ k + 1 + s
    · rw [if_pos h1, if_pos (by omega)]
      rw [getD_set_self _ _ _ _ (by omega)]
      have hexp : j - k = (j - (k + 1)) + 1 := by omega
      rw [div_div, hexp, pow_succ']
    · rw [if_neg h1]
      by_cases h2 : j = k + 1
      · subst h2
        rw [getD_set_self _ _ _ _ (by omega), if_pos (by omega)]
        rw [show k + 1 - k = 1 from by omega, pow_one]
      · rw [getD_set_ne _ _ _ _ _ fun hh => h2 hh.symm]
        rw [if_neg (by omega)]

/-! ### Dropping into a zero-padded digit list -/

lemma drop_replicate_append_le (i m : ℕ) (l : List ℕ) (h : m ≤ i) :
    (List.replicate i 0 ++ l).drop m = List.replicate (i - m) 0 ++ l := by
  rw [List.drop_append_of_le_length (by simpa using h), List.drop_replicate]

lemma drop_replicate_append_ge (i m : ℕ) (l : List ℕ) (h : i ≤ m) :
    (List.replicate i 0 ++ l).drop m = l.drop (m - i) := by
  have hd := @List.drop_append _ (List.replicate i (0 : ℕ)) l (m - i)
  rw [List.length_replicate] at hd
  rw [show i + (m - i) = m from by omega] at hd
  exact hd

/-- Core correctness of the carry-branch remainder update: if `rem2` agrees
with the cache prescribed for the new digit list `replicate i 0 ++ D :: T` on
every slot below the recomputed one, then setting slot `len - i` and running
the propagation loop yields exactly the cache for the new digit list. -/
lemma rem_update_core (bq : ℚ) (i : ℕ) (D : ℕ) (T : List ℕ) (rem2 : List ℚ)
    (hi : 1 ≤ i)
    (hlen : rem2.length = i + 1 + T.length)
    (hrem2 : ∀ j, j < rem2.length - i →
        rem2.getD j 0 =
          digitsVal bq ((List.replicate i 0 ++ D :: T).drop (rem2.length - j))) :
    propagate bq (rem2.length - i) (i - 1)
        (rem2.set (rem2.length - i)
          (((D : ℚ) + rem2.getD (rem2.length - i - 1) 0) / bq)) =
      remList bq (List.replicate i 0 ++ D :: T) := by
  set dig2 := List.replicate i 0 ++ D :: T with hdig2
  set len := rem2.length with hlendef
  have hdlen : dig2.length = i + 1 + T.length := by
    rw [hdig2]
    simp
    omega
  have hdlen2 : dig2.length = len := by rw [hdlen, hlen]
  have hvalT : rem2.getD (len - i - 1) 0 = digitsVal bq T := by
    rw [hrem2 (len - i - 1) (by omega)]
    have h2 : len - (len - i - 1) = i + 1 := by omega
    rw [h2]
    have h3 : dig2.drop (i + 1) = T := by
      rw [hdig2, drop_replicate_append_ge i (i + 1) _ (by omega)]
      simp
    rw [h3]
  have hsetval : ((D : ℚ) + rem2.getD (len - i - 1) 0) / bq = digitsVal bq (D :: T) := by
    rw [hvalT, digitsVal]
  apply list_eq_of_getD
  · rw [propagate_length, List.length_set, length_remList, hdlen]
    exact hlen
  · intro j hj
    rw [propagate_length, List.length_set] at hj
    rw [propagate_getD bq (i - 1) (len - i) _ (by rw [List.length_set]; omega) j]
    rw [remList_getD bq dig2 j (by rw [hdlen]; omega)]
    rw [hdlen2]
    by_cases hcase : len - i < j
    · rw [if_pos (by omega)]
      rw [getD_set_self _ _ _ _ (by omega), hsetval]
      have hd2 : dig2.drop (len - j) = List.replicate (i - (len - j)) 0 ++ D :: T := by
        rw [hdig2]
        exact drop_replicate_append_le i (len - j) _ (by omega)
      rw [hd2, digitsVal_replicate_append]
      have hexp : i - (len - j) = j - (len - i) := by omega
      rw [hexp]
    · rw [if_neg (by omega)]
      by_cases hcase2 : j = len - i
      · subst hcase2
        rw [getD_set_self _ _ _ _ (by omega), hsetval]
        have hd1 : len - (len - i) = i := by omega
        rw [hd1]
        have hd2 : dig2.drop i = D :: T := by
          rw [hdig2, drop_replicate_append_ge i i _ le_rfl]
          simp
        rw [hd2]
      · rw [getD_set_ne _ _ _ _ _ fun hh => hcase2 hh.symm]
        exact hrem2 j (by omega)

lemma digitsNum_replicate_zero (b : ℕ) : ∀ m, digitsNum b (List.replicate m 0) = 0 := by
  intro m
  induction m with
  | zero => rfl
  | succ m ih => simp [List.replicate_succ, digitsNum, ih]

lemma getD_drop_zero (l : List ℕ) (i : ℕ) (h : i < l.length) :
    (l.drop i).getD 0 0 = l.getD i 0 := by
  have h0 : 0 < (l.drop i).length := by rw [List.length_drop]; omega
  rw [List.getD_eq_getElem _ _ h0, List.getD_eq_getElem _ _ h]
  rw [@List.getElem_drop _ l i 0 h0]
  simp

lemma collapse_rem4 (b : ℚ) (i len : ℕ) (rem3 : List ℚ) (hi : 1 ≤ i) (hil : i ≤ len) :
    (if 2 ≤ i then propagate b (len - i) ((len - 1) - (len - i)) rem3 else rem3) =
      propagate b (len - i) (i - 1) rem3 := by
  by_cases h2 : 2 ≤ i
  · rw [if_pos h2]
    congr 1
    omega
  · rw [if_neg h2]
    have hi1 : i = 1 := by omega
    subst hi1
    rfl

lemma state_of_remList (bn : ℕ) (i D : ℕ) (T : List ℕ) (hi : 1 ≤ i) :
    (remList (bn : ℚ) (List.replicate i 0 ++ D :: T)).getLastD 0 / (bn : ℚ) =
      digitsVal (bn : ℚ) (List.replicate i 0 ++ D :: T) := by
  rw [remList_getLastD _ _ (by simp)]
  have h1 : List.replicate i 0 ++ D :: T = 0 :: (List.replicate (i - 1) 0 ++ D :: T) := by
    conv_lhs => rw [show i = (i - 1) + 1 from by omega, List.replicate_succ]
    rw [List.cons_append]
  rw [h1]
  have h2 : ((0 : ℕ) :: (List.replicate (i - 1) 0 ++ D :: T)).drop 1 =
      List.replicate (i - 1) 0 ++ D :: T := rfl
  rw [h2, digitsVal]
  simp

/-- In the no-overflow branch, advance just bumps the least significant digit
and recomputes the state from the top remainder. -/
lemma advance_simple_eq (h : Halton) (hhead : ¬ h.dig.headD 0 = h.base - 1) :
    h.advance =
      { base := h.base,
        dig := h.dig.set 0 (h.dig.headD 0 + 1),
        rem := h.rem,
        state := (((h.dig.set 0 (h.dig.headD 0 + 1)).headD 0 : ℚ) +
          h.rem.getLastD 0) / (h.base : ℚ) } := by
  simp only [Halton.advance, if_neg hhead]

/-- In the carry branch where an existing digit absorbs the carry, advance
produces the zero-padded incremented digit list together with exactly the
remainder cache and Halton value that digit list prescribes. -/
lemma advance_carry1_eq (h : Halton) (hInv : h.Inv)
    (hhead : h.dig.headD 0 = h.base - 1)
    (hcase : (carry (h.base - 1) h.dig).1 < (carry (h.base - 1) h.dig).2.length) :
    h.advance =
      { base := h.base,
        dig := List.replicate (carry (h.base - 1) h.dig).1 0 ++
          (h.dig.getD (carry (h.base - 1) h.dig).1 0 + 1) ::
            h.dig.drop ((carry (h.base - 1) h.dig).1 + 1),
        rem := remList (h.base : ℚ)
          (List.replicate (carry (h.base - 1) h.dig).1 0 ++
            (h.dig.getD (carry (h.base - 1) h.dig).1 0 + 1) ::
              h.dig.drop ((carry (h.base - 1) h.dig).1 + 1)),
        state := digitsVal (h.base : ℚ)
          (List.replicate (carry (h.base - 1) h.dig).1 0 ++
            (h.dig.getD (carry (h.base - 1) h.dig).1 0 + 1) ::
              h.dig.drop ((carry (h.base - 1) h.dig).1 + 1)) } := by
  obtain ⟨hb, hne, hlt, hrem⟩ := hInv
  have hcz := carry_snd (h.base - 1) h.dig
  have hile := carry_fst_le (h.base - 1) h.dig
  have hipos := carry_fst_pos (h.base - 1) h.dig hne hhead
  simp only [Halton.advance, if_pos hhead]
  set i := (carry (h.base - 1) h.dig).1 with hidef
  set cz := (carry (h.base - 1) h.dig).2 with hczdef
  have hremlen : h.rem.length = h.dig.length := by rw [hrem, length_remList]
  have hczlen : cz.length = h.dig.length := by
    rw [hcz]
    simp only [List.length_append, List.length_replicate, List.length_drop]
    omega
  have hin : i < h.dig.length := by rwa [hczlen] at hcase
  rw [if_pos hcase]
  dsimp only
  have hdisplit : h.dig.drop i = h.dig.getD i 0 :: h.dig.drop (i + 1) := by
    rw [List.getD_eq_getElem _ _ hin]
    exact List.drop_eq_getElem_cons hin
  have hczget : cz.getD i 0 = h.dig.getD i 0 := by
    rw [hcz, getD_append_right _ _ _ _ (by simp), List.length_replicate, Nat.sub_self]
    exact getD_drop_zero h.dig i hin
  have hdig2 : cz.set i (cz.getD i 0 + 1) =
      List.replicate i 0 ++ (h.dig.getD i 0 + 1) :: h.dig.drop (i + 1) := by
    rw [hczget, hcz, hdisplit, List.set_append, if_neg (by simp),
      List.length_replicate, Nat.sub_self, List.set_cons_zero]
  have hdig2get : (cz.set i (cz.getD i 0 + 1)).getD i 0 = h.dig.getD i 0 + 1 := by
    rw [getD_set_self _ _ _ _ hcase, hczget]
  have hlenpre : h.rem.length = i + 1 + (h.dig.drop (i + 1)).length := by
    rw [hremlen, List.length_drop]
    omega
  have hcore_rem2 : ∀ j, j < h.rem.length - i →
      h.rem.getD j 0 = digitsVal (h.base : ℚ)
        ((List.replicate i 0 ++
          (h.dig.getD i 0 + 1) :: h.dig.drop (i + 1)).drop (h.rem.length - j)) := by
    intro j hj
    have hjn : j < h.dig.length := by omega
    rw [hremlen, hrem, remList_getD _ _ j hjn]
    rw [drop_replicate_append_ge i _ _ (by omega)]
    rw [show h.dig.length - j - i = (h.dig.length - j - i - 1) + 1 from by omega]
    rw [List.drop_succ_cons, List.drop_drop]
    rw [show i + 1 + (h.dig.length - j - i - 1) = h.dig.length - j from by omega]
  have hcore := rem_update_core (h.base : ℚ) i (h.dig.getD i 0 + 1)
    (h.dig.drop (i + 1)) h.rem hipos hlenpre hcore_rem2
  rw [hdig2get, collapse_rem4 _ i h.rem.length _ hipos (by omega), hdig2, hcore,
    state_of_remList h.base i (h.dig.getD i 0 + 1) (h.dig.drop (i + 1)) hipos]

/-- In the carry branch where every digit overflowed, advance appends a new
leading digit 1 (and a remainder slot) and again produces exactly the cache
and Halton value of the new digit list. -/
lemma advance_carry2_eq (h : Halton) (hInv : h.Inv)
    (hhead : h.dig.headD 0 = h.base - 1)
    (hcase : ¬ (carry (h.base - 1) h.dig).1 < (carry (h.base - 1) h.dig).2.length) :
    h.advance =
      { base := h.base,
        dig := List.replicate (carry (h.base - 1) h.dig).1 0 ++ 1 :: ([] : List ℕ),
        rem := remList (h.base : ℚ)
          (List.replicate (carry (h.base - 1) h.dig).1 0 ++ 1 :: ([] : List ℕ)),
        state := digitsVal (h.base : ℚ)
          (List.replicate (carry (h.base - 1) h.dig).1 0 ++ 1 :: ([] : List ℕ)) } := by
  obtain ⟨hb, hne, hlt, hrem⟩ := hInv
  have hcz := carry_snd (h.base - 1) h.dig
  have hile := carry_fst_le (h.base - 1) h.dig
  have hipos := carry_fst_pos (h.base - 1) h.dig hne hhead
  have hn1 : 0 < h.dig.length := List.length_pos.mpr hne
  simp only [Halton.advance, if_pos hhead]
  set i := (carry (h.base - 1) h.dig).1 with hidef
  set cz := (carry (h.base - 1) h.dig).2 with hczdef
  have hremlen : h.rem.length = h.dig.length := by rw [hrem, length_remList]
  have hczlen : cz.length = h.dig.length := by
    rw [hcz]
    simp only [List.length_append, List.length_replicate, List.length_drop]
    omega
  have hieq : i = h.dig.length := by omega
  rw [if_neg hcase]
  dsimp only
  have hdropnil : h.dig.drop i = [] := by
    rw [hieq]
    exact List.drop_length _
  have hdig2 : cz ++ [1] = List.replicate i 0 ++ 1 :: ([] : List ℕ) := by
    rw [hcz, hdropnil, List.append_nil]
  have hdig2get : (cz ++ [1]).getD i 0 = 1 := by
    rw [getD_append_right _ _ _ _ (by omega), show i - cz.length = 0 from by omega]
    rfl
  have hlenpre : (h.rem ++ [(0 : ℚ)]).length = i + 1 + ([] : List ℕ).length := by
    simp only [List.length_append, List.length_cons, List.length_nil]
    omega
  have hcore_rem2 : ∀ j, j < (h.rem ++ [(0 : ℚ)]).length - i →
      (h.rem ++ [(0 : ℚ)]).getD j 0 = digitsVal (h.base : ℚ)
        ((List.replicate i 0 ++ 1 :: ([] : List ℕ)).drop
          ((h.rem ++ [(0 : ℚ)]).length - j)) := by
    intro j hj
    have hj0 : j = 0 := by
      simp only [List.length_append, List.length_cons, List.length_nil] at hj
      omega
    subst hj0
    rw [getD_append_left _ _ _ _ (by omega)]
    rw [show (h.rem ++ [(0 : ℚ)]).length = h.dig.length + 1 from by
      simp only [List.length_append, List.length_cons, List.length_nil]; omega]
    rw [hrem, remList_getD _ _ 0 (by omega), Nat.sub_zero, List.drop_length]
    rw [List.drop_eq_nil_iff.mpr (by simp; omega)]
  have hcore := rem_update_core (h.base : ℚ) i 1 ([] : List ℕ) (h.rem ++ [(0 : ℚ)])
    hipos hlenpre hcore_rem2
  rw [hdig2get, collapse_rem4 _ i (h.rem ++ [(0 : ℚ)]).length _ hipos
    (by simp only [List.length_append, List.length_cons, List.length_nil]; omega),
    hdig2, hcore, state_of_remList h.base i 1 [] hipos]

/-- One advance step on an invariant-respecting state: the base is unchanged,
the invariant is preserved, the encoded index goes up by exactly one, the new
state is the Halton value of the new digits, and the vectors grow (by one
element each) precisely when every digit was `base - 1`. -/
lemma advance_spec (h : Halton) (hInv : h.Inv) :
    (h.advance).base = h.base ∧
    (h.advance).Inv ∧
    digitsNum h.base (h.advance).dig = digitsNum h.base h.dig + 1 ∧
    (h.advance).state = digitsVal (h.base : ℚ) (h.advance).dig ∧
    ((∀ d ∈ h.dig, d = h.base - 1) →
      (h.advance).dig.length = h.dig.length + 1 ∧
        (h.advance).rem.length = h.rem.length + 1) ∧
    (¬ (∀ d ∈ h.dig, d = h.base - 1) →
      (h.advance).dig.length = h.dig.length ∧
        (h.advance).rem.length = h.rem.length) := by
  obtain ⟨hb, hne, hlt, hrem⟩ := hInv
  have hremlen : h.rem.length = h.dig.length := by rw [hrem, length_remList]
  by_cases hhead : h.dig.headD 0 = h.base - 1
  · have hile := carry_fst_le (h.base - 1) h.dig
    have hipos := carry_fst_pos (h.base - 1) h.dig hne hhead
    have hn1 : 0 < h.dig.length := List.length_pos.mpr hne
    have hczlen : (carry (h.base - 1) h.dig).2.length = h.dig.length := by
      rw [carry_snd]
      simp only [List.length_append, List.length_replicate, List.length_drop]
      omega
    by_cases hcase : (carry (h.base - 1) h.dig).1 < (carry (h.base - 1) h.dig).2.length
    · -- an existing digit absorbs the carry
      have hin : (carry (h.base - 1) h.dig).1 < h.dig.length := by omega
      have hdilt : h.dig.getD (carry (h.base - 1) h.dig).1 0 < h.base := by
        rw [List.getD_eq_getElem _ _ hin]
        exact hlt _ (List.getElem_mem _)
      have hdine := carry_stop (h.base - 1) h.dig hin
      have hdimem : h.dig.getD (carry (h.base - 1) h.dig).1 0 ∈ h.dig := by
        rw [List.getD_eq_getElem _ _ hin]
        exact List.getElem_mem _
      have hdisplit : h.dig.drop (carry (h.base - 1) h.dig).1 =
          h.dig.getD (carry (h.base - 1) h.dig).1 0 ::
            h.dig.drop ((carry (h.base - 1) h.dig).1 + 1) := by
        rw [List.getD_eq_getElem _ _ hin]
        exact List.drop_eq_getElem_cons hin
      rw [advance_carry1_eq h ⟨hb, hne, hlt, hrem⟩ hhead hcase]
      dsimp only
      refine ⟨rfl, ?_, ?_, rfl, ?_, ?_⟩
      · unfold Halton.Inv
        dsimp only
        refine ⟨hb, by simp, ?_, rfl⟩
        intro d hd
        rcases List.mem_append.mp hd with hd1 | hd2
        · have := (List.mem_replicate.mp hd1).2
          omega
        · rcases List.mem_cons.mp hd2 with rfl | hd3
          · omega
          · exact hlt d (List.mem_of_mem_drop hd3)
      · have hsplitdig : h.dig =
            List.replicate (carry (h.base - 1) h.dig).1 (h.base - 1) ++
              h.dig.getD (carry (h.base - 1) h.dig).1 0 ::
                h.dig.drop ((carry (h.base - 1) h.dig).1 + 1) := by
          conv_lhs => rw [← List.take_append_drop (carry (h.base - 1) h.dig).1 h.dig]
          rw [carry_take, hdisplit]
        have hrep := digitsNum_all_max h.base (by omega)
          (List.replicate (carry (h.base - 1) h.dig).1 (h.base - 1))
          (fun x hx => (List.mem_replicate.mp hx).2)
        rw [List.length_replicate] at hrep
        rw [digitsNum_append, digitsNum_replicate_zero, List.length_replicate]
        conv_rhs => rw [hsplitdig]
        rw [digitsNum_append, List.length_replicate]
        simp only [digitsNum]
        have hM : h.base ^ (carry (h.base - 1) h.dig).1 *
              (h.dig.getD (carry (h.base - 1) h.dig).1 0 + 1 +
                h.base * digitsNum h.base
                  (h.dig.drop ((carry (h.base - 1) h.dig).1 + 1))) =
            h.base ^ (carry (h.base - 1) h.dig).1 *
              (h.dig.getD (carry (h.base - 1) h.dig).1 0 +
                h.base * digitsNum h.base
                  (h.dig.drop ((carry (h.base - 1) h.dig).1 + 1))) +
              h.base ^ (carry (h.base - 1) h.dig).1 := by
          ring
        omega
      · intro hall
        exact absurd (hall _ hdimem) hdine
      · intro _
        constructor
        · simp only [List.length_append, List.length_replicate, List.length_cons,
            List.length_drop]
          omega
        · rw [length_remList]
          simp only [List.length_append, List.length_replicate, List.length_cons,
            List.length_drop]
          omega
    · -- every digit overflowed
      have hieq : (carry (h.base - 1) h.dig).1 = h.dig.length := by omega
      have hall := carry_all (h.base - 1) h.dig hieq
      rw [advance_carry2_eq h ⟨hb, hne, hlt, hrem⟩ hhead hcase]
      dsimp only
      refine ⟨rfl, ?_, ?_, rfl, ?_, ?_⟩
      · unfold Halton.Inv
        dsimp only
        refine ⟨hb, by simp, ?_, rfl⟩
        intro d hd
        rcases List.mem_append.mp hd with hd1 | hd2
        · have := (List.mem_replicate.mp hd1).2
          omega
        · rcases List.mem_cons.mp hd2 with rfl | hd3
          · omega
          · simp at hd3
      · have hmax := digitsNum_all_max h.base (by omega) h.dig hall
        rw [digitsNum_append, digitsNum_replicate_zero, List.length_replicate]
        simp only [digitsNum, Nat.mul_zero, Nat.add_zero, Nat.zero_add, Nat.mul_one]
        rw [hieq]
        omega
      · intro _
        constructor
        · simp only [List.length_append, List.length_replicate, List.length_cons,
            List.length_nil]
          omega
        · rw [length_remList]
          simp only [List.length_append, List.length_replicate, List.length_cons,
            List.length_nil]
          omega
      · intro hnall
        exact absurd hall hnall
  · -- simple branch
    obtain ⟨d0, t, hdig⟩ : ∃ d0 t, h.dig = d0 :: t := by
      cases hd : h.dig with
      | nil => exact absurd hd hne
      | cons a l => exact ⟨a, l, rfl⟩
    have hd0 : d0 < h.base := hlt d0 (by rw [hdig]; exact List.mem_cons_self _ _)
    have hd0ne : d0 ≠ h.base - 1 := by
      rw [hdig] at hhead
      simpa using hhead
    rw [advance_simple_eq h hhead]
    dsimp only
    rw [hdig]
    simp only [List.headD_cons, List.set_cons_zero]
    refine ⟨trivial, ?_, ?_, ?_, ?_, ?_⟩
    · unfold Halton.Inv
      dsimp only
      refine ⟨hb, by simp, ?_, ?_⟩
      · intro d hd
        rcases List.mem_cons.mp hd with rfl | hdt
        · omega
        · exact hlt d (by rw [hdig]; exact List.mem_cons_of_mem _ hdt)
      · rw [hrem, hdig]
        exact remList_cons_irrel _ _ _ _
    · simp only [digitsNum]
      omega
    · rw [hrem, hdig, remList_getLastD _ _ (by simp)]
      simp only [List.drop_succ_cons, List.drop_zero, digitsVal]
    · intro hall
      exact absurd (hall d0 (List.mem_cons_self _ _)) hd0ne
    · intro _
      exact ⟨by simp, trivial⟩

/-! ### Construction facts -/

lemma new_base (i b : ℕ) : (Halton.new i b).base = if b < 2 then 2 else b := rfl

lemma new_dig (i b : ℕ) :
    (Halton.new i b).dig =
      toDigits (if b < 2 then 2 else b) (if i < 1 then 0 else i - 1) := rfl

lemma new_state (i b : ℕ) : (Halton.new i b).state = 0 := rfl

lemma new_rem_def (i b : ℕ) :
    (Halton.new i b).rem = buildRem ((if b < 2 then 2 else b : ℕ) : ℚ)
      (toDigits (if b < 2 then 2 else b) (if i < 1 then 0 else i - 1)).length
      (toDigits (if b < 2 then 2 else b) (if i < 1 then 0 else i - 1)).reverse [0] := rfl

lemma new_base_ge (i b : ℕ) : 2 ≤ (Halton.new i b).base := by
  rw [new_base]
  split <;> omega

lemma new_inv (i b : ℕ) : (Halton.new i b).Inv := by
  have hb2 : 2 ≤ (if b < 2 then 2 else b) := by split <;> omega
  refine ⟨new_base_ge i b, ?_, ?_, ?_⟩
  · rw [new_dig]
    exact toDigits_ne_nil _ _
  · rw [new_dig, new_base]
    exact toDigits_lt _ hb2 _
  · rw [new_rem_def, new_base, new_dig]
    exact new_rem_eq _ _ (toDigits_ne_nil _ _)

lemma new_num (i b : ℕ) :
    digitsNum (Halton.new i b).base (Halton.new i b).dig =
      (if i < 1 then 0 else i - 1) := by
  rw [new_base, new_dig]
  exact digitsNum_toDigits _ (by split <;> omega) _

/-! ### States reachable by advancing -/

lemma advanceN_props (s b : ℕ) : ∀ k,
    ((Halton.new s b).advanceN k).Inv ∧
    ((Halton.new s b).advanceN k).base = (Halton.new s b).base ∧
    digitsNum (Halton.new s b).base ((Halton.new s b).advanceN k).dig =
      (if s < 1 then 0 else s - 1) + k := by
  intro k
  induction k with
  | zero =>
    refine ⟨new_inv s b, rfl, ?_⟩
    show digitsNum (Halton.new s b).base (Halton.new s b).dig =
      (if s < 1 then 0 else s - 1) + 0
    rw [new_num, Nat.add_zero]
  | succ k ih =>
    obtain ⟨hinv, hbase, hnum⟩ := ih
    have hstep := advance_spec _ hinv
    refine ⟨hstep.2.1, ?_, ?_⟩
    · show (((Halton.new s b).advanceN k).advance).base = _
      rw [hstep.1, hbase]
    · show digitsNum (Halton.new s b).base (((Halton.new s b).advanceN k).advance).dig = _
      rw [← hbase, hstep.2.2.1, hbase, hnum]
      omega

lemma advanceN_state (s b k : ℕ) :
    ((Halton.new s b).advanceN (k + 1)).state =
      digitsVal ((Halton.new s b).base : ℚ) (((Halton.new s b).advanceN (k + 1)).dig) := by
  obtain ⟨hinv, hbase, _⟩ := advanceN_props s b k
  have hstep := advance_spec _ hinv
  show (((Halton.new s b).advanceN k).advance).state = _
  rw [hstep.2.2.2.1, hbase]
  rfl

lemma advanceN_state_val (s b k : ℕ) :
    ((Halton.new s b).advanceN (k + 1)).state =
      digitsVal ((Halton.new s b).base : ℚ)
        (toDigits (Halton.new s b).base ((if s < 1 then 0 else s - 1) + (k + 1))) := by
  obtain ⟨hinv, hbase, hnum⟩ := advanceN_props s b (k + 1)
  obtain ⟨_, _, hlt, _⟩ := hinv
  rw [advanceN_state s b k]
  rw [digitsVal_eq_toDigits (Halton.new s b).base (new_base_ge s b) _
    (by rw [hbase] at hlt; exact hlt)]
  rw [hnum]

/-! ### The brute-force reference -/

lemma bruteForceAux_eq (b : ℕ) (hb : 2 ≤ b) :
    ∀ fuel i f r, i ≤ fuel →
      bruteForceAux b fuel i f r = r + f * digitsVal (b : ℚ) (toDigits b i) := by
  have h0 : toDigits b 0 = [0] := by rw [toDigits_eq b 0 hb, if_neg (by omega)]
  have hbq : ((b : ℚ)) ≠ 0 := by
    have : (0 : ℚ) < (b : ℚ) := by exact_mod_cast (by omega : 0 < b)
    exact this.ne'
  intro fuel
  induction fuel with
  | zero =>
    intro i f r hi
    have hi0 : i = 0 := by omega
    subst hi0
    rw [h0]
    simp [bruteForceAux, digitsVal]
  | succ fuel ih =>
    intro i f r hi
    simp only [bruteForceAux]
    by_cases hpos : 0 < i
    · rw [if_pos hpos]
      rw [ih (i / b) (f / b) _ (by
        have : i / b < i := Nat.div_lt_self hpos (by omega)
        omega)]
      rw [toDigits_eq b i hb]
      by_cases hbi : b ≤ i
      · rw [if_pos hbi, digitsVal]
        field_simp
        ring
      · rw [if_neg hbi]
        have hib : i / b = 0 := Nat.div_eq_of_lt (by omega)
        have himod : i % b = i := Nat.mod_eq_of_lt (by omega)
        rw [hib, himod, h0]
        simp only [digitsVal, Nat.cast_zero, zero_add, add_zero, zero_div]
        field_simp
    · rw [if_neg hpos]
      have hi0 : i = 0 := by omega
      subst hi0
      rw [h0]
      simp [digitsVal]

lemma bruteForce_eq_digitsVal (i b : ℕ) (hi : 1 ≤ i) (hb : 2 ≤ b) :
    bruteForce i b = digitsVal (b : ℚ) (toDigits b i) := by
  simp only [bruteForce]
  rw [if_neg (by omega), if_neg (by omega)]
  rw [bruteForceAux_eq b hb i i 1 0 le_rfl]
  simp

/-! ### No leading zeros: the digit vector stays canonical -/

lemma getD_drop (l : List ℕ) (m j : ℕ) (h : m + j < l.length) :
    (l.drop m).getD j 0 = l.getD (m + j) 0 := by
  rw [List.getD_eq_getElem _ _ (by rw [List.length_drop]; omega),
    List.getD_eq_getElem _ _ h]
  exact List.getElem_drop l

lemma toDigits_canon (b : ℕ) (hb : 2 ≤ b) : ∀ i,
    (toDigits b i).getD ((toDigits b i).length - 1) 0 ≠ 0 ∨
      (toDigits b i).length = 1 := by
  intro i
  induction i using Nat.strong_induction_on with
  | _ i ih =>
    rw [toDigits_eq b i hb]
    by_cases hbi : b ≤ i
    · rw [if_pos hbi]
      left
      have hrne : toDigits b (i / b) ≠ [] := toDigits_ne_nil _ _
      have hrl : 1 ≤ (toDigits b (i / b)).length := List.length_pos.mpr hrne
      have hlen : (i % b :: toDigits b (i / b)).length =
          (toDigits b (i / b)).length + 1 := by simp
      rw [hlen, Nat.add_sub_cancel,
        show (toDigits b (i / b)).length = ((toDigits b (i / b)).length - 1) + 1 from
          by omega,
        List.getD_cons_succ]
      have hdivpos : 1 ≤ i / b := (Nat.one_le_div_iff (by omega)).mpr hbi
      rcases ih (i / b) (Nat.div_lt_self (by omega) (by omega)) with htop | hone
      · exact htop
      · obtain ⟨x, hx⟩ := List.length_eq_one.mp hone
        have hxval : x = i / b := by
          have := digitsNum_toDigits b hb (i / b)
          rw [hx] at this
          simpa [digitsNum] using this
        rw [hx]
        simp only [List.length_cons, List.length_nil, Nat.zero_add, Nat.sub_self,
          List.getD_cons_zero]
        omega
    · rw [if_neg hbi]
      right
      rfl

lemma digitsNum_ge_top (b : ℕ) :
    ∀ ds, ds ≠ [] → b ^ (ds.length - 1) * ds.getD (ds.length - 1) 0 ≤ digitsNum b ds := by
  intro ds
  induction ds with
  | nil => intro h; exact absurd rfl h
  | cons x t ih =>
    intro _
    by_cases ht : t = []
    · subst ht
      simp [digitsNum]
    · have htl : 1 ≤ t.length := List.length_pos.mpr ht
      have hih := ih ht
      have hlen : (x :: t).length - 1 = (t.length - 1) + 1 := by simp; omega
      rw [hlen, List.getD_cons_succ]
      calc b ^ ((t.length - 1) + 1) * t.getD (t.length - 1) 0
          = b * (b ^ (t.length - 1) * t.getD (t.length - 1) 0) := by
            rw [pow_succ']
            ring
        _ ≤ b * digitsNum b t := Nat.mul_le_mul_left b hih
        _ ≤ x + b * digitsNum b t := by omega
        _ = digitsNum b (x :: t) := rfl

lemma advance_canon (h : Halton) (hInv : h.Inv)
    (hc : h.dig.getD (h.dig.length - 1) 0 ≠ 0 ∨ h.dig.length = 1) :
    (h.advance).dig.getD ((h.advance).dig.length - 1) 0 ≠ 0 ∨
      (h.advance).dig.length = 1 := by
  obtain ⟨hb, hne, hlt, hrem⟩ := hInv
  by_cases hhead : h.dig.headD 0 = h.base - 1
  · have hile := carry_fst_le (h.base - 1) h.dig
    have hipos := carry_fst_pos (h.base - 1) h.dig hne hhead
    have hn1 : 0 < h.dig.length := List.length_pos.mpr hne
    have hczlen : (carry (h.base - 1) h.dig).2.length = h.dig.length := by
      rw [carry_snd]
      simp only [List.length_append, List.length_replicate, List.length_drop]
      omega
    by_cases hcase : (carry (h.base - 1) h.dig).1 < (carry (h.base - 1) h.dig).2.length
    · have hin : (carry (h.base - 1) h.dig).1 < h.dig.length := by omega
      rw [advance_carry1_eq h ⟨hb, hne, hlt, hrem⟩ hhead hcase]
      dsimp only
      left
      have hT : (h.dig.drop ((carry (h.base - 1) h.dig).1 + 1)).length =
          h.dig.length - ((carry (h.base - 1) h.dig).1 + 1) := List.length_drop _ _
      have hlen2 : (List.replicate (carry (h.base - 1) h.dig).1 0 ++
          (h.dig.getD (carry (h.base - 1) h.dig).1 0 + 1) ::
            h.dig.drop ((carry (h.base - 1) h.dig).1 + 1)).length = h.dig.length := by
        simp only [List.length_append, List.length_replicate, List.length_cons,
          List.length_drop]
        omega
      rw [hlen2]
      by_cases hT0 : h.dig.drop ((carry (h.base - 1) h.dig).1 + 1) = []
      · -- the incremented digit is the top digit
        have hieq : (carry (h.base - 1) h.dig).1 = h.dig.length - 1 := by
          rw [hT0] at hT
          simp at hT
          omega
        rw [getD_append_right _ _ _ _ (by simp; omega), List.length_replicate, ← hieq,
          Nat.sub_self, List.getD_cons_zero]
        omega
      · -- the top digit is unchanged
        have hTl : 1 ≤ (h.dig.drop ((carry (h.base - 1) h.dig).1 + 1)).length :=
          List.length_pos.mpr hT0
        rw [getD_append_right _ _ _ _ (by simp; omega), List.length_replicate]
        rw [show h.dig.length - 1 - (carry (h.base - 1) h.dig).1 =
          (h.dig.length - 1 - (carry (h.base - 1) h.dig).1 - 1) + 1 from by omega]
        rw [List.getD_cons_succ]
        rw [getD_drop _ _ _ (by omega)]
        rw [show (carry (h.base - 1) h.dig).1 + 1 +
          (h.dig.length - 1 - (carry (h.base - 1) h.dig).1 - 1) =
            h.dig.length - 1 from by omega]
        rcases hc with htop | hone
        · exact htop
        · omega
    · rw [advance_carry2_eq h ⟨hb, hne, hlt, hrem⟩ hhead hcase]
      dsimp only
      left
      have hlen2 : (List.replicate (carry (h.base - 1) h.dig).1 0 ++
          1 :: ([] : List ℕ)).length = (carry (h.base - 1) h.dig).1 + 1 := by
        simp
      rw [hlen2, Nat.add_sub_cancel,
        getD_append_right _ _ _ _ (by simp), List.length_replicate, Nat.sub_self,
        List.getD_cons_zero]
      omega
  · obtain ⟨d0, t, hdig⟩ : ∃ d0 t, h.dig = d0 :: t := by
      cases hd : h.dig with
      | nil => exact absurd hd hne
      | cons a l => exact ⟨a, l, rfl⟩
    rw [advance_simple_eq h hhead]
    dsimp only
    rw [hdig]
    simp only [List.headD_cons, List.set_cons_zero]
    by_cases ht : t = []
    · subst ht
      right
      rfl
    · left
      have htl : 1 ≤ t.length := List.length_pos.mpr ht
      have hlen2 : ((d0 + 1) :: t).length - 1 = (t.length - 1) + 1 := by simp; omega
      rw [hlen2, List.getD_cons_succ]
      rw [hdig] at hc
      rcases hc with htop | hone
      · have hlen3 : (d0 :: t).length - 1 = (t.length - 1) + 1 := by simp; omega
        rw [hlen3, List.getD_cons_succ] at htop
        exact htop
      · exfalso
        simp only [List.length_cons] at hone
        omega

lemma advanceN_canon (s b : ℕ) : ∀ k,
    (((Halton.new s b).advanceN k).dig.getD
        (((Halton.new s b).advanceN k).dig.length - 1) 0 ≠ 0 ∨
      ((Halton.new s b).advanceN k).dig.length = 1) := by
  intro k
  induction k with
  | zero =>
    show ((Halton.new s b).dig.getD ((Halton.new s b).dig.length - 1) 0 ≠ 0 ∨
      (Halton.new s b).dig.length = 1)
    rw [new_dig]
    exact toDigits_canon _ (by split <;> omega) _
  | succ k ih =>
    exact advance_canon _ (advanceN_props s b k).1 ih

/-! ### Totality of advance on invariant states -/

lemma advanceChecked_eq (h : Halton) (hInv : h.Inv) :
    h.advanceChecked = some h.advance := by
  obtain ⟨hb, hne, hlt, hrem⟩ := hInv
  have hn1 : 0 < h.dig.length := List.length_pos.mpr hne
  have hremlen : h.rem.length = h.dig.length := by rw [hrem, length_remList]
  have hremne : h.rem ≠ [] := by
    intro hcon
    rw [hcon] at hremlen
    simp at hremlen
    omega
  simp only [Halton.advanceChecked, Halton.advance]
  rw [if_neg (not_or.mpr ⟨hne, hremne⟩)]
  by_cases hhead : h.dig.headD 0 = h.base - 1
  · rw [if_pos hhead, if_pos hhead]
    have hile := carry_fst_le (h.base - 1) h.dig
    have hipos := carry_fst_pos (h.base - 1) h.dig hne hhead
    have hczlen : (carry (h.base - 1) h.dig).2.length = h.dig.length := by
      rw [carry_snd]
      simp only [List.length_append, List.length_replicate, List.length_drop]
      omega
    by_cases hcase : (carry (h.base - 1) h.dig).1 < (carry (h.base - 1) h.dig).2.length
    · rw [if_pos hcase]
      dsimp only
      rw [if_pos (by
        refine ⟨?_, ?_, ?_, ?_, ?_, ?_⟩ <;> (try simp only [List.length_set]) <;> omega)]
      rw [if_neg (by
        intro hcon
        have hlencon := congrArg List.length hcon
        revert hlencon
        split
        · rw [propagate_length, List.length_set, List.length_nil]
          omega
        · rw [List.length_set, List.length_nil]
          omega)]
    · rw [if_neg hcase]
      dsimp only
      rw [if_pos (by
        refine ⟨?_, ?_, ?_, ?_, ?_, ?_⟩ <;>
          (try simp only [List.length_append, List.length_cons, List.length_nil]) <;>
          omega)]
      rw [if_neg (by
        intro hcon
        have hlencon := congrArg List.length hcon
        revert hlencon
        split
        · rw [propagate_length, List.length_set, List.length_append, List.length_cons,
            List.length_nil]
          omega
        · rw [List.length_set, List.length_append, List.length_cons, List.length_nil]
          omega)]
  · rw [if_neg hhead, if_neg hhead]

/-! ### Round-robin interleaving -/

lemma map_range_getD {α : Type} (l : List α) (d : α) :
    (List.range l.length).map (fun j => l.getD j d) = l := by
  apply List.ext_getElem (by simp)
  intro j h1 h2
  rw [List.getElem_map, List.getElem_range, List.getD_eq_getElem _ _ h2]

lemma map_range_getD_f {β : Type} (f : ℕ → β) (n j : ℕ) (d : β) (h : j < n) :
    ((List.range n).map f).getD j d = f j := by
  rw [List.getD_eq_getElem _ _ (by simp; omega)]
  simp

lemma hits_zero (len j : ℕ) : hits len j 0 = 0 := by
  simp [hits]

lemma hits_succ (len j k : ℕ) (hlen : 0 < len) (hj : j < len) :
    hits len j (k + 1) = hits len j k + (if k % len = j then 1 else 0) := by
  have hsplit := Nat.div_add_mod k len
  have hsplit' : k / len * len + k % len = k := by
    rw [Nat.mul_comm] at hsplit
    exact hsplit
  have hmlt : k % len < len := Nat.mod_lt _ hlen
  have hk1 : k + 1 = (k % len + 1) + (k / len) * len := by omega
  have hdiv1 : (k + 1) / len = (k % len + 1) / len + k / len := by
    rw [hk1, Nat.add_mul_div_right _ _ hlen]
  have hmod1 : (k + 1) % len = (k % len + 1) % len := by
    rw [hk1, Nat.add_mul_mod_self_right]
  unfold hits
  rcases Nat.lt_or_ge (k % len + 1) len with hc | hc
  · have hd0 : (k % len + 1) / len = 0 := Nat.div_eq_of_lt hc
    have hm0 : (k % len + 1) % len = k % len + 1 := Nat.mod_eq_of_lt hc
    rw [hdiv1, hmod1, hd0, hm0]
    split_ifs <;> omega
  · have hceq : k % len + 1 = len := by omega
    have hd0 : (k % len + 1) / len = 1 := by rw [hceq]; exact Nat.div_self hlen
    have hm0 : (k % len + 1) % len = 0 := by rw [hceq]; exact Nat.mod_self len
    rw [hdiv1, hmod1, hd0, hm0]
    split_ifs <;> omega

lemma interleave_stepN_eq {R : Type} [Inhabited R] (samp : R → ℚ × R) (gs : List R)
    (hgs : gs ≠ []) : ∀ k,
    Interleave.stepN samp ⟨gs, 0⟩ k =
      ⟨(List.range gs.length).map
        (fun j => sampleIterate samp (gs.getD j default) (hits gs.length j k)),
       k % gs.length⟩ := by
  have hlen : 0 < gs.length := List.length_pos.mpr hgs
  intro k
  induction k with
  | zero =>
    show (⟨gs, 0⟩ : Interleave R) = _
    have h1 : (List.range gs.length).map
        (fun j => sampleIterate samp (gs.getD j default) (hits gs.length j 0)) = gs := by
      have h2 : ∀ j, sampleIterate samp (gs.getD j default) (hits gs.length j 0) =
          gs.getD j default := by
        intro j
        rw [hits_zero]
        rfl
      calc (List.range gs.length).map
            (fun j => sampleIterate samp (gs.getD j default) (hits gs.length j 0))
          = (List.range gs.length).map (fun j => gs.getD j default) :=
            List.map_congr_left fun a _ => h2 a
        _ = gs := map_range_getD gs default
    rw [h1, Nat.zero_mod]
  | succ k ih =>
    show (Interleave.step samp (Interleave.stepN samp ⟨gs, 0⟩ k)).2 = _
    rw [ih]
    unfold Interleave.step
    dsimp only
    rw [Interleave.mk.injEq]
    constructor
    · rw [map_range_getD_f _ _ _ _ (Nat.mod_lt _ hlen)]
      refine @list_eq_of_getD R default _ _ ?_ ?_
      · rw [List.length_set]
        simp
      · intro j hj
        rw [List.length_set, List.length_map, List.length_range] at hj
        by_cases hjk : j = k % gs.length
        · subst hjk
          rw [getD_set_self _ _ _ _ (by simp; omega)]
          rw [map_range_getD_f _ _ _ _ hj]
          rw [hits_succ _ _ _ hlen hj, if_pos rfl]
          rfl
        · rw [getD_set_ne _ _ _ _ _ fun hh => hjk hh.symm]
          rw [map_range_getD_f _ _ _ _ hj, map_range_getD_f _ _ _ _ hj]
          rw [hits_succ _ _ _ hlen hj, if_neg fun hh => hjk hh.symm, Nat.add_zero]
    · rw [List.length_set, List.length_map, List.length_range]
      exact Nat.mod_add_mod k gs.length 1

lemma interleave_outAt_eq {R : Type} [Inhabited R] (samp : R → ℚ × R) (gs : List R)
    (hgs : gs ≠ []) (k : ℕ) :
    Interleave.outAt samp ⟨gs, 0⟩ k =
      (samp (sampleIterate samp (gs.getD (k % gs.length) default) (k / gs.length))).1 := by
  have hlen : 0 < gs.length := List.length_pos.mpr hgs
  unfold Interleave.outAt
  rw [interleave_stepN_eq samp gs hgs k]
  unfold Interleave.step
  dsimp only
  rw [map_range_getD_f _ _ _ _ (Nat.mod_lt _ hlen)]
  have hh : hits gs.length (k % gs.length) k = k / gs.length := by
    unfold hits
    rw [if_neg (lt_irrefl _), Nat.add_zero]
  rw [hh]

lemma sampleIterate_halton (g : Halton) : ∀ m,
    sampleIterate Halton.sample_f64 g m = g.advanceN m := by
  intro m
  induction m with
  | zero => rfl
  | succ m ih =>
    show (Halton.sample_f64 (sampleIterate Halton.sample_f64 g m)).2 = _
    rw [ih]
    rfl

/-! ### The claims -/

/-- C1: for every 1-based index i ≥ 1 and base b ≥ 2, the value the Halton
generator produces for index i — the state after advancing a generator built
with new(i, b) once, and equally the i-th value of a generator started at
index 1 — equals the direct digit-expansion sum of the base-b digits of i as
computed by the brute-force reference, within 2× the f64 machine epsilon
(exactly, in the exact-arithmetic model). -/
theorem C1_value_matches_digit_expansion (i b : ℕ) (hi : 1 ≤ i) (hb : 2 ≤ b) :
    ((Halton.new i b).advanceN 1).state = bruteForce i b ∧
    ((Halton.new 1 b).advanceN i).state = bruteForce i b ∧
    |((Halton.new i b).advanceN 1).state - bruteForce i b| ≤ 2 * (1 / 2 ^ 52 : ℚ) ∧
    |((Halton.new 1 b).advanceN i).state - bruteForce i b| ≤ 2 * (1 / 2 ^ 52 : ℚ) := by
  have hbase : (Halton.new i b).base = b := by rw [new_base, if_neg (by omega)]
  have hbase1 : (Halton.new 1 b).base = b := by rw [new_base, if_neg (by omega)]
  have h1 : ((Halton.new i b).advanceN 1).state = bruteForce i b := by
    have hv := advanceN_state_val i b 0
    rw [show (0 : ℕ) + 1 = 1 from rfl] at hv
    rw [hv, hbase, if_neg (by omega), show i - 1 + 1 = i from by omega,
      bruteForce_eq_digitsVal i b hi hb]
  have h2 : ((Halton.new 1 b).advanceN i).state = bruteForce i b := by
    obtain ⟨k, rfl⟩ : ∃ k, i = k + 1 := ⟨i - 1, by omega⟩
    rw [advanceN_state_val 1 b k, hbase1, if_neg (by omega),
      show 1 - 1 + (k + 1) = k + 1 from by omega,
      bruteForce_eq_digitsVal (k + 1) b (by omega) hb]
  refine ⟨h1, h2, ?_, ?_⟩
  · rw [h1, sub_self, abs_zero]
    positivity
  · rw [h2, sub_self, abs_zero]
    positivity

/-- Witness for C1 at i = 5, b = 3: the produced value is 7/9. -/
theorem C1_value_matches_digit_expansion_witness :
    ((Halton.new 5 3).advanceN 1).state = bruteForce 5 3 ∧ bruteForce 5 3 = 7 / 9 :=
  ⟨(C1_value_matches_digit_expansion 5 3 (by decide) (by decide)).1,
    by simp [bruteForce, bruteForceAux]; norm_num⟩

/-- C2: the digit vector always holds digits in [0, base-1]; construction
makes it encode s - 1 and each advance increments the encoded integer, so
after k advances it encodes s - 1 + k. -/
theorem C2_digits_encode_index (s b k : ℕ) (hs : 1 ≤ s) (hb : 2 ≤ b) :
    (∀ d ∈ ((Halton.new s b).advanceN k).dig, d < b) ∧
    digitsNum b ((Halton.new s b).advanceN k).dig = s - 1 + k := by
  obtain ⟨hinv, hbase, hnum⟩ := advanceN_props s b k
  have hb2 : (Halton.new s b).base = b := by rw [new_base, if_neg (by omega)]
  obtain ⟨_, _, hlt, _⟩ := hinv
  constructor
  · intro d hd
    have := hlt d hd
    rwa [hbase, hb2] at this
  · rw [hb2] at hnum
    rw [hnum, if_neg (by omega)]

/-- Witness for C2 at s = 3, b = 2, k = 4: the digits encode 6. -/
theorem C2_digits_encode_index_witness :
    digitsNum 2 ((Halton.new 3 2).advanceN 4).dig = 3 - 1 + 4 ∧
    digitsNum 2 ((Halton.new 3 2).advanceN 4).dig = 6 :=
  ⟨(C2_digits_encode_index 3 2 4 (by decide) (by decide)).2,
    by rw [(C2_digits_encode_index 3 2 4 (by decide) (by decide)).2]⟩

/-- C5: every state reachable from a construction, after any number of
advances, lies in the half-open unit interval. -/
theorem C5_state_in_unit_interval (s b k : ℕ) :
    0 ≤ ((Halton.new s b).advanceN k).state ∧
    ((Halton.new s b).advanceN k).state < 1 := by
  cases k with
  | zero =>
    constructor
    · show (0 : ℚ) ≤ (Halton.new s b).state
      rw [new_state]
    · show (Halton.new s b).state < 1
      rw [new_state]
      norm_num
  | succ k =>
    obtain ⟨hinv, hbase, _⟩ := advanceN_props s b (k + 1)
    obtain ⟨_, _, hlt, _⟩ := hinv
    rw [hbase] at hlt
    rw [advanceN_state s b k]
    have hbge := new_base_ge s b
    have hbpos : (0 : ℚ) < ((Halton.new s b).base : ℚ) := by
      exact_mod_cast (by omega : 0 < (Halton.new s b).base)
    exact ⟨digitsVal_nonneg _ hbpos _,
      digitsVal_lt_one (Halton.new s b).base (by omega) _ hlt⟩

/-- C8: advance is total over every state reachable from a correct
construction: no index is out of bounds, no unwrap fails and no defensive
assertion triggers, so the fully checked advance returns exactly the
unchecked one. -/
theorem C8_advance_total_on_reachable (s b k : ℕ) :
    ((Halton.new s b).advanceN k).advanceChecked =
      some (((Halton.new s b).advanceN k).advance) :=
  advanceChecked_eq _ (advanceN_props s b k).1

/-- C9: construction silently normalizes invalid inputs: new(i, b) is the
same generator as new(max i 1, max b 2), and in particular new(0, b)
behaves exactly like new(1, b). -/
theorem C9_new_clamps_inputs (i b : ℕ) :
    Halton.new i b = Halton.new (max i 1) (max b 2) ∧
    Halton.new 0 b = Halton.new 1 b := by
  constructor
  · simp only [Halton.new]
    have e1 : (if i < 1 then 0 else i - 1) =
        (if max i 1 < 1 then 0 else max i 1 - 1) := by
      split_ifs <;> omega
    have e2 : (if b < 2 then 2 else b) = (if max b 2 < 2 then 2 else max b 2) := by
      split_ifs <;> omega
    rw [e1, e2]
  · rfl

/-- C10: the first remainder slot is exactly 0 in every reachable state:
construction seeds it with 0 and advance never writes slot 0. -/
theorem C10_first_remainder_always_zero (s b k : ℕ) :
    ((Halton.new s b).advanceN k).rem.getD 0 0 = 0 ∧
    ((Halton.new s b).advanceN k).rem ≠ [] := by
  obtain ⟨⟨_, hne, _, hrem⟩, _, _⟩ := advanceN_props s b k
  have hn1 : 0 < ((Halton.new s b).advanceN k).dig.length := List.length_pos.mpr hne
  constructor
  · rw [hrem, remList_getD _ _ 0 (by omega), Nat.sub_zero, List.drop_length]
    rfl
  · apply List.length_pos.mp
    rw [hrem, length_remList]
    omega

/-- C7: constructing an interleaver from an empty collection violates the
precondition (modelled as none); for every non-empty input construction
succeeds, stores the generators in order and starts the cursor at 0. -/
theorem C7_interleave_new_guard :
    (∀ (R : Type), Interleave.new ([] : List R) = none) ∧
    (∀ (R : Type) (gs : List R), gs ≠ [] →
      Interleave.new gs = some { generators := gs, current := 0 }) := by
  constructor
  · intro R
    simp [Interleave.new]
  · intro R gs hgs
    simp only [Interleave.new]
    rw [if_pos (List.length_pos.mpr hgs)]

/-- Witness for C7 with one generator. -/
theorem C7_interleave_new_guard_witness :
    Interleave.new [Halton.new 1 2] =
      some { generators := [Halton.new 1 2], current := 0 } :=
  C7_interleave_new_guard.2 Halton [Halton.new 1 2] (by simp)

/-- C6: every delegated sampling call takes its value from the generator
under the cursor and then advances the cursor modulo the number of
generators, so the cursor is always a valid index and the output at
position k is the ⌊k/len⌋-th own value of generator k mod len; concretely,
interleaving the base-2 and base-3 Halton sequences yields
1/2, 1/3, 1/4, 2/3, 3/4, 1/9, 1/8, 4/9, …. -/
theorem C6_interleave_round_robin :
    (∀ (gs : List Halton) (k : ℕ), gs ≠ [] →
      (Interleave.stepN Halton.sample_f64 ⟨gs, 0⟩ k).current = k % gs.length ∧
      (Interleave.stepN Halton.sample_f64 ⟨gs, 0⟩ k).current < gs.length ∧
      Interleave.outAt Halton.sample_f64 ⟨gs, 0⟩ k =
        ((gs.getD (k % gs.length) default).advanceN (k / gs.length + 1)).state) ∧
    (List.range 8).map (Interleave.outAt Halton.sample_f64
        ⟨[Halton.new 1 2, Halton.new 1 3], 0⟩) =
      [1/2, 1/3, 1/4, 2/3, 3/4, 1/9, 1/8, 4/9] := by
  constructor
  · intro gs k hgs
    have hlen : 0 < gs.length := List.length_pos.mpr hgs
    have hcur : (Interleave.stepN Halton.sample_f64 ⟨gs, 0⟩ k).current =
        k % gs.length := by
      rw [interleave_stepN_eq Halton.sample_f64 gs hgs k]
    refine ⟨hcur, by rw [hcur]; exact Nat.mod_lt _ hlen, ?_⟩
    rw [interleave_outAt_eq Halton.sample_f64 gs hgs k, sampleIterate_halton]
    rfl
  · simp [Halton.new, toDigits, toDigitsAux, buildRem, Halton.advance, carry, propagate,
      Interleave.outAt, Interleave.stepN, Interleave.step, Halton.sample_f64, List.range,
      List.range.loop]
    norm_num

/-- Witness for C6: the fourth interleaved output is the second own value of
the base-3 generator. -/
theorem C6_interleave_round_robin_witness :
    Interleave.outAt Halton.sample_f64 ⟨[Halton.new 1 2, Halton.new 1 3], 0⟩ 3 =
      (([Halton.new 1 2, Halton.new 1 3].getD 1 default).advanceN 2).state :=
  (C6_interleave_round_robin.1 [Halton.new 1 2, Halton.new 1 3] 3 (by simp)).2.2

/-- C4: the digit and remainder vectors always have equal length, and they
grow — by exactly one element each — exactly when the new encoded index
crosses a power of the base; on all other advances both lengths are
unchanged. -/
theorem C4_length_invariant_growth (s b k : ℕ) (hs : 1 ≤ s) (hb : 2 ≤ b) :
    ((Halton.new s b).advanceN k).dig.length =
      ((Halton.new s b).advanceN k).rem.length ∧
    ((((Halton.new s b).advanceN k).advance.dig.length =
        ((Halton.new s b).advanceN k).dig.length + 1 ∧
      ((Halton.new s b).advanceN k).advance.rem.length =
        ((Halton.new s b).advanceN k).rem.length + 1) ↔
      ∃ m : ℕ, s + k = b ^ (m + 1)) ∧
    ((¬ ∃ m : ℕ, s + k = b ^ (m + 1)) →
      ((Halton.new s b).advanceN k).advance.dig.length =
          ((Halton.new s b).advanceN k).dig.length ∧
        ((Halton.new s b).advanceN k).advance.rem.length =
          ((Halton.new s b).advanceN k).rem.length) := by
  obtain ⟨hinv, hbase, hnum⟩ := advanceN_props s b k
  have hb2 : (Halton.new s b).base = b := by rw [new_base, if_neg (by omega)]
  rw [hb2] at hbase hnum
  rw [if_neg (by omega)] at hnum
  have hcanon := advanceN_canon s b k
  set H := (Halton.new s b).advanceN k with hH
  obtain ⟨hbge, hne, hlt, hrem⟩ := hinv
  have hstep := advance_spec H ⟨hbge, hne, hlt, hrem⟩
  have hlenpos : 1 ≤ H.dig.length := List.length_pos.mpr hne
  have hltb : ∀ d ∈ H.dig, d < b := by
    intro d hd
    have := hlt d hd
    rwa [hbase] at this
  have hnum1 : digitsNum b H.dig + 1 = s + k := by omega
  have hallmax_iff : (∀ d ∈ H.dig, d = H.base - 1) ↔ ∃ m : ℕ, s + k = b ^ (m + 1) := by
    constructor
    · intro hallmax
      have hpow := digitsNum_all_max H.base (by omega) H.dig hallmax
      rw [hbase] at hpow
      refine ⟨H.dig.length - 1, ?_⟩
      rw [show H.dig.length - 1 + 1 = H.dig.length from by omega]
      omega
    · rintro ⟨m, hm⟩
      have hpow : digitsNum b H.dig + 1 = b ^ (m + 1) := by omega
      have hltpow : digitsNum b H.dig < b ^ H.dig.length :=
        digitsNum_lt_pow b (by omega) _ hltb
      have hlelen : m + 1 ≤ H.dig.length := by
        have hle : b ^ (m + 1) ≤ b ^ H.dig.length := by omega
        exact (Nat.pow_le_pow_iff_right (by omega)).mp hle
      have hgelen : H.dig.length ≤ m + 1 := by
        rcases hcanon with htop | hone
        · have hge := digitsNum_ge_top b H.dig hne
          have htop1 : 1 ≤ H.dig.getD (H.dig.length - 1) 0 := by omega
          have hgepow : b ^ (H.dig.length - 1) ≤ digitsNum b H.dig := by
            calc b ^ (H.dig.length - 1) = b ^ (H.dig.length - 1) * 1 := by ring
              _ ≤ b ^ (H.dig.length - 1) * H.dig.getD (H.dig.length - 1) 0 :=
                  Nat.mul_le_mul_left _ htop1
              _ ≤ digitsNum b H.dig := hge
          have hlt2 : b ^ (H.dig.length - 1) < b ^ (m + 1) := by omega
          have := (Nat.pow_lt_pow_iff_right (by omega : 1 < b)).mp hlt2
          omega
        · omega
      have hleneq : H.dig.length = m + 1 := by omega
      have hfin := all_max_of_digitsNum b hb H.dig hltb (by rw [hleneq]; omega)
      intro d hd
      rw [hbase]
      exact hfin d hd
  refine ⟨?_, ?_, ?_⟩
  · rw [hrem, length_remList]
  · constructor
    · intro hgrow
      rw [← hallmax_iff]
      by_contra hnall
      have := hstep.2.2.2.2.2 hnall
      omega
    · intro hex
      exact hstep.2.2.2.2.1 (hallmax_iff.mpr hex)
  · intro hnex
    apply hstep.2.2.2.2.2
    intro hallmax
    exact hnex (hallmax_iff.mp hallmax)

/-- Witness for C4 at s = 1, b = 2, k = 3: advancing from index 4 to 5 does
not cross a power of two only when the precondition fails — here s + k = 4 =
2², so both vectors grow by one. -/
theorem C4_length_invariant_growth_witness :
    ((Halton.new 1 2).advanceN 3).advance.dig.length =
        ((Halton.new 1 2).advanceN 3).dig.length + 1 ∧
    ((Halton.new 1 2).advanceN 3).advance.rem.length =
        ((Halton.new 1 2).advanceN 3).rem.length + 1 :=
  ((C4_length_invariant_growth 1 2 3 (by decide) (by decide)).2.1).mpr
    ⟨1, by norm_num⟩

lemma drop_carry_suffix (i D : ℕ) (ds : List ℕ) (m : ℕ) (hm : i + 1 ≤ m) :
    (List.replicate i 0 ++ D :: ds.drop (i + 1)).drop m = ds.drop m := by
  rw [drop_replicate_append_ge i m _ (by omega)]
  rw [show m - i = (m - i - 1) + 1 from by omega, List.drop_succ_cons, List.drop_drop]
  rw [show i + 1 + (m - i - 1) = m from by omega]

/-- Index-wise description of the remainder cache of a digit list of the form
produced by a carry: the slot of the surviving digit, the propagation
recurrence up to and including the top slot, and the state read off the top. -/
lemma remList_carry_shape (bn : ℕ) (i D : ℕ) (T : List ℕ) (hi : 1 ≤ i) :
    (remList (bn : ℚ) (List.replicate i 0 ++ D :: T)).getD
        ((List.replicate i 0 ++ D :: T).length - i) 0 =
      ((D : ℚ) + digitsVal (bn : ℚ) T) / (bn : ℚ) ∧
    (∀ j, (List.replicate i 0 ++ D :: T).length - i < j →
      j < (List.replicate i 0 ++ D :: T).length →
      (remList (bn : ℚ) (List.replicate i 0 ++ D :: T)).getD j 0 =
        (remList (bn : ℚ) (List.replicate i 0 ++ D :: T)).getD (j - 1) 0 / (bn : ℚ)) ∧
    digitsVal (bn : ℚ) (List.replicate i 0 ++ D :: T) =
      (remList (bn : ℚ) (List.replicate i 0 ++ D :: T)).getD
        ((List.replicate i 0 ++ D :: T).length - 1) 0 / (bn : ℚ) := by
  have hdlen : (List.replicate i 0 ++ D :: T).length = i + 1 + T.length := by
    simp
    omega
  refine ⟨?_, ?_, ?_⟩
  · rw [remList_getD _ _ _ (by omega)]
    have he0 : (List.replicate i 0 ++ D :: T).length -
        ((List.replicate i 0 ++ D :: T).length - i) = i := by omega
    rw [he0]
    rw [drop_replicate_append_ge i i _ le_rfl, Nat.sub_self, List.drop_zero]
    simp only [digitsVal]
  · intro j hj1 hj2
    rw [remList_getD _ _ j (by omega), remList_getD _ _ (j - 1) (by omega)]
    have he1 : (List.replicate i 0 ++ D :: T).length - (j - 1) =
        ((List.replicate i 0 ++ D :: T).length - j) + 1 := by omega
    rw [he1]
    have hmlt : (List.replicate i 0 ++ D :: T).length - j < i := by omega
    rw [drop_replicate_append_le i _ _ (by omega),
      drop_replicate_append_le i _ _ (by omega)]
    have he2 : i - ((List.replicate i 0 ++ D :: T).length - j) =
        (i - ((List.replicate i 0 ++ D :: T).length - j) - 1) + 1 := by omega
    rw [he2, List.replicate_succ, List.cons_append]
    have he3 : i - (((List.replicate i 0 ++ D :: T).length - j) + 1) =
        i - ((List.replicate i 0 ++ D :: T).length - j) - 1 := by omega
    rw [he3]
    simp only [digitsVal, Nat.cast_zero, zero_add]
  · rw [remList_getD _ _ _ (by omega)]
    have he0 : (List.replicate i 0 ++ D :: T).length -
        ((List.replicate i 0 ++ D :: T).length - 1) = 1 := by omega
    rw [he0]
    have he2 : List.replicate i 0 ++ D :: T =
        0 :: (List.replicate (i - 1) 0 ++ D :: T) := by
      conv_lhs => rw [show i = (i - 1) + 1 from by omega, List.replicate_succ]
      rw [List.cons_append]
    rw [he2]
    have he3 : ((0 : ℕ) :: (List.replicate (i - 1) 0 ++ D :: T)).drop 1 =
        List.replicate (i - 1) 0 ++ D :: T := rfl
    rw [he3]
    simp only [digitsVal, Nat.cast_zero, zero_add]

/-- C3 as worded is refuted on a concrete input: advancing the generator at
index 3 in base 2 (built by new(4, 2)) triggers a carry across both digits;
the source recomputes the top remainder slot (to 1/4) and yields state 1/8,
while the claimed update — which leaves the top slot out of the recomputed
range — would leave the freshly appended 0 on top and yield state 0. -/
theorem C3_top_slot_counterexample :
    (Halton.new 4 2).advanceClaimedCarry.state = 0 ∧
    (Halton.new 4 2).advance.state = 1 / 8 ∧
    (Halton.new 4 2).advanceClaimedCarry.rem = [0, 1 / 2, 0] ∧
    (Halton.new 4 2).advance.rem = [0, 1 / 2, 1 / 4] ∧
    (Halton.new 4 2).advanceClaimedCarry ≠ (Halton.new 4 2).advance := by
  have h1 : (Halton.new 4 2).advanceClaimedCarry.state = 0 := by
    simp [Halton.new, toDigits, toDigitsAux, buildRem, Halton.advanceClaimedCarry, carry,
      propagate]
  have h2 : (Halton.new 4 2).advance.state = 1 / 8 := by
    simp [Halton.new, toDigits, toDigitsAux, buildRem, Halton.advance, carry, propagate]
    norm_num
  have h3 : (Halton.new 4 2).advanceClaimedCarry.rem = [0, 1 / 2, 0] := by
    simp [Halton.new, toDigits, toDigitsAux, buildRem, Halton.advanceClaimedCarry, carry,
      propagate]
  have h4 : (Halton.new 4 2).advance.rem = [0, 1 / 2, 1 / 4] := by
    simp [Halton.new, toDigits, toDigitsAux, buildRem, Halton.advance, carry, propagate]
    norm_num
  refine ⟨h1, h2, h3, h4, fun hcon => ?_⟩
  have hx := congrArg Halton.state hcon
  rw [h1, h2] at hx
  norm_num at hx

/-- C3 amended: in the carry branch, the slot of the newly incremented (or
appended) digit is recomputed to (digit + remainder below) / base, every slot
above it up to AND INCLUDING the top is set to the remainder below it divided
by base, slots below are untouched, and the new state is the recomputed top
remainder divided by base. -/
theorem C3_carry_remainder_update_amended (h : Halton) (hInv : h.Inv)
    (hhead : h.dig.headD 0 = h.base - 1) (i : ℕ) (rem2 : List ℚ)
    (hieq : i = (carry (h.base - 1) h.dig).1)
    (hrem2 : rem2 = if i < h.dig.length then h.rem else h.rem ++ [(0 : ℚ)]) :
    (h.advance).rem.length = rem2.length ∧
    (∀ j, j < rem2.length - i → (h.advance).rem.getD j 0 = rem2.getD j 0) ∧
    (h.advance).rem.getD (rem2.length - i) 0 =
      (((h.advance).dig.getD i 0 : ℚ) + rem2.getD (rem2.length - i - 1) 0) /
        (h.base : ℚ) ∧
    (∀ j, rem2.length - i < j → j < rem2.length →
      (h.advance).rem.getD j 0 = (h.advance).rem.getD (j - 1) 0 / (h.base : ℚ)) ∧
    (h.advance).state = (h.advance).rem.getD (rem2.length - 1) 0 / (h.base : ℚ) := by
  obtain ⟨hb, hne, hlt, hrem⟩ := hInv
  have hn1 : 0 < h.dig.length := List.length_pos.mpr hne
  have hremlen : h.rem.length = h.dig.length := by rw [hrem, length_remList]
  have hile := carry_fst_le (h.base - 1) h.dig
  have hipos := carry_fst_pos (h.base - 1) h.dig hne hhead
  have hczlen : (carry (h.base - 1) h.dig).2.length = h.dig.length := by
    rw [carry_snd]
    simp only [List.length_append, List.length_replicate, List.length_drop]
    omega
  subst hieq
  by_cases hcase : (carry (h.base - 1) h.dig).1 < h.dig.length
  · rw [if_pos hcase] at hrem2
    subst hrem2
    have hcase' : (carry (h.base - 1) h.dig).1 < (carry (h.base - 1) h.dig).2.length :=
      by omega
    rw [advance_carry1_eq h ⟨hb, hne, hlt, hrem⟩ hhead hcase']
    dsimp only
    have hshape := remList_carry_shape h.base (carry (h.base - 1) h.dig).1
      (h.dig.getD (carry (h.base - 1) h.dig).1 0 + 1)
      (h.dig.drop ((carry (h.base - 1) h.dig).1 + 1)) hipos
    have hd2l : (List.replicate (carry (h.base - 1) h.dig).1 0 ++
        (h.dig.getD (carry (h.base - 1) h.dig).1 0 + 1) ::
          h.dig.drop ((carry (h.base - 1) h.dig).1 + 1)).length = h.dig.length := by
      simp only [List.length_append, List.length_replicate, List.length_cons,
        List.length_drop]
      omega
    have hd2get : (List.replicate (carry (h.base - 1) h.dig).1 0 ++
        (h.dig.getD (carry (h.base - 1) h.dig).1 0 + 1) ::
          h.dig.drop ((carry (h.base - 1) h.dig).1 + 1)).getD
            (carry (h.base - 1) h.dig).1 0 =
        h.dig.getD (carry (h.base - 1) h.dig).1 0 + 1 := by
      rw [getD_append_right _ _ _ _ (by simp), List.length_replicate, Nat.sub_self,
        List.getD_cons_zero]
    have hbelow : h.rem.getD (h.rem.length - (carry (h.base - 1) h.dig).1 - 1) 0 =
        digitsVal (h.base : ℚ) (h.dig.drop ((carry (h.base - 1) h.dig).1 + 1)) := by
      rw [hremlen, hrem, remList_getD _ _ _ (by omega)]
      have he0 : h.dig.length - (h.dig.length - (carry (h.base - 1) h.dig).1 - 1) =
          (carry (h.base - 1) h.dig).1 + 1 := by omega
      rw [he0]
    refine ⟨?_, ?_, ?_, ?_, ?_⟩
    · rw [length_remList, hd2l, hremlen]
    · intro j hj
      rw [remList_getD _ _ j (by rw [hd2l]; omega), hd2l,
        drop_carry_suffix _ _ _ _ (by omega)]
      rw [hrem, remList_getD _ _ j (by omega)]
    · rw [hremlen, ← hd2l, hshape.1, hd2get, hd2l, ← hremlen, hbelow]
    · intro j hj1 hj2
      rw [hremlen, ← hd2l] at hj1 hj2
      exact hshape.2.1 j hj1 hj2
    · rw [hremlen, ← hd2l]
      exact hshape.2.2
  · rw [if_neg hcase] at hrem2
    subst hrem2
    have hieq2 : (carry (h.base - 1) h.dig).1 = h.dig.length := by omega
    have hcase' : ¬ (carry (h.base - 1) h.dig).1 < (carry (h.base - 1) h.dig).2.length :=
      by omega
    rw [advance_carry2_eq h ⟨hb, hne, hlt, hrem⟩ hhead hcase']
    dsimp only
    have hshape := remList_carry_shape h.base (carry (h.base - 1) h.dig).1 1
      ([] : List ℕ) hipos
    have hd2l : (List.replicate (carry (h.base - 1) h.dig).1 0 ++
        1 :: ([] : List ℕ)).length = h.dig.length + 1 := by
      simp only [List.length_append, List.length_replicate, List.length_cons,
        List.length_nil]
      omega
    have hr2l : (h.rem ++ [(0 : ℚ)]).length = h.dig.length + 1 := by
      simp only [List.length_append, List.length_cons, List.length_nil]
      omega
    have hd2get : (List.replicate (carry (h.base - 1) h.dig).1 0 ++
        1 :: ([] : List ℕ)).getD (carry (h.base - 1) h.dig).1 0 = 1 := by
      rw [getD_append_right _ _ _ _ (by simp), List.length_replicate, Nat.sub_self,
        List.getD_cons_zero]
    have hrem0 : (h.rem ++ [(0 : ℚ)]).getD 0 0 = 0 := by
      rw [getD_append_left _ _ _ _ (by omega)]
      rw [hrem, remList_getD _ _ 0 (by omega), Nat.sub_zero, List.drop_length]
      rfl
    refine ⟨?_, ?_, ?_, ?_, ?_⟩
    · rw [length_remList, hd2l, hr2l]
    · intro j hj
      have hj0 : j = 0 := by
        rw [hr2l] at hj
        omega
      subst hj0
      have hdz : (List.replicate (carry (h.base - 1) h.dig).1 0 ++
          1 :: ([] : List ℕ)).drop ((List.replicate (carry (h.base - 1) h.dig).1 0 ++
            1 :: ([] : List ℕ)).length - 0) = [] := by
        rw [Nat.sub_zero]
        exact List.drop_length _
      rw [hrem0, remList_getD _ _ 0 (by rw [hd2l]; omega), hdz]
      rfl
    · have he0 : (List.replicate (carry (h.base - 1) h.dig).1 0 ++
          1 :: ([] : List ℕ)).length - (carry (h.base - 1) h.dig).1 - 1 = 0 := by
        rw [hd2l]
        omega
      rw [hr2l, ← hd2l, hshape.1, hd2get, he0, hrem0]
      rfl
    · intro j hj1 hj2
      rw [hr2l, ← hd2l] at hj1 hj2
      exact hshape.2.1 j hj1 hj2
    · rw [hr2l, ← hd2l]
      exact hshape.2.2

/-- Witness for the amended C3 at new(4, 2): the update appends a slot (the
remainder vector has length 3, one more than the two digits of index 3), and
the new state is the recomputed top remainder divided by the base. -/
theorem C3_carry_remainder_update_amended_witness :
    (Halton.new 4 2).advance.state =
      (Halton.new 4 2).advance.rem.getD 2 0 / ((Halton.new 4 2).base : ℚ) :=
  (C3_carry_remainder_update_amended (Halton.new 4 2) (new_inv 4 2) (by decide) 2
    [0, 1 / 2, 0] (by decide) (by norm_num [Halton.new, toDigits, toDigitsAux,
      buildRem])).2.2.2.2

end Tapas
